import Mathlib

/-!
Verification of the frame-based algorithm-visualizer core
(`src/editor-script.js` of CPP-Algorithm-visualizer).

The JavaScript source is shallowly embedded:
* arrays of numbers become `List Int`, indexed with `getI` (all source
  accesses are in bounds, so the `getD`-default is never observable);
* each frame object literal becomes a Lean structure with the same fields;
* the `for`/`while` loops of the frame producers become structurally
  recursive functions over an explicit iteration count (the count equals
  the number of iterations the source loop performs, so the loop guard is
  represented exactly);
* the `AnimationEngine` becomes a state record plus one function per
  method; the browser event loop's scheduled callbacks (`setTimeout`,
  `requestAnimationFrame`) are modelled by pending-callback flags plus
  explicit "fire" transitions, and `renderFrame` calls are logged in a
  `rendered` field.
-/

/-! ## List prelude: indexing, swapping, slices, sorted ranges -/

/-- Index read of the source: all uses are in bounds, default `0` is never hit. -/
def getI (l : List Int) (i : Nat) : Int := l.getD i 0

/-- The JS destructuring swap `[arr[i], arr[j]] = [arr[j], arr[i]]`:
both positions are read from the original list and then written. -/
def swapL (l : List Int) (i j : Nat) : List Int :=
  (l.set i (getI l j)).set j (getI l i)

theorem length_swapL (l : List Int) (i j : Nat) :
    (swapL l i j).length = l.length := by
  simp [swapL]

theorem getI_set_eq (l : List Int) (i : Nat) (x : Int) (h : i < l.length) :
    getI (l.set i x) i = x := by
  simp [getI, List.getD_eq_getElem?_getD, List.getElem?_set, h]

theorem getI_set_ne (l : List Int) (i j : Nat) (x : Int) (h : i ≠ j) :
    getI (l.set i x) j = getI l j := by
  simp [getI, List.getD_eq_getElem?_getD, List.getElem?_set, h]

theorem getI_swapL_left (l : List Int) (i j : Nat) (hi : i < l.length) (hij : i ≠ j) :
    getI (swapL l i j) i = getI l j := by
  rw [swapL, getI_set_ne _ _ _ _ (Ne.symm hij), getI_set_eq _ _ _ hi]

theorem getI_swapL_right (l : List Int) (i j : Nat) (hj : j < l.length) :
    getI (swapL l i j) j = getI l i := by
  rw [swapL, getI_set_eq]
  simpa using hj

theorem getI_swapL_other (l : List Int) (i j k : Nat) (hik : k ≠ i) (hjk : k ≠ j) :
    getI (swapL l i j) k = getI l k := by
  rw [swapL, getI_set_ne _ _ _ _ (Ne.symm hjk), getI_set_ne _ _ _ _ (Ne.symm hik)]

theorem count_set_eq (l : List Int) (i : Nat) (x b : Int) (h : i < l.length) :
    ((l.set i x).count b) =
      (l.count b - (if l[i] = b then 1 else 0)) + (if x = b then 1 else 0) := by
  have := List.count_set x b l i h
  simpa [beq_iff_eq] using this

theorem count_getI_pos (l : List Int) (i : Nat) (h : i < l.length) :
    1 ≤ l.count (getI l i) := by
  have hm : getI l i ∈ l := by
    have : l[i] ∈ l := List.getElem_mem h
    simpa [getI, List.getD_eq_getElem?_getD, List.getElem?_eq_getElem h] using this
  exact List.one_le_count_iff.mpr hm

theorem swapL_perm (l : List Int) (i j : Nat) (hi : i < l.length) (hj : j < l.length) :
    (swapL l i j).Perm l := by
  rcases eq_or_ne i j with rfl | hij
  · rw [swapL, List.set_set]
    refine List.perm_iff_count.mpr (fun b => ?_)
    rw [count_set_eq _ _ _ _ hi]
    have hgi : getI l i = l[i] := by
      simp [getI, List.getD_eq_getElem?_getD, List.getElem?_eq_getElem hi]
    by_cases hb : l[i] = b
    · have : 1 ≤ l.count b := hb ▸ List.one_le_count_iff.mpr (List.getElem_mem hi)
      simp [hgi, hb]
      omega
    · simp [hgi, hb]
  · refine List.perm_iff_count.mpr (fun b => ?_)
    have hj' : j < (l.set i (getI l j)).length := by simpa using hj
    rw [swapL, count_set_eq _ _ _ _ hj', count_set_eq _ _ _ _ hi]
    have hgi : getI l i = l[i] := by
      simp [getI, List.getD_eq_getElem?_getD, List.getElem?_eq_getElem hi]
    have hgj : getI l j = l[j] := by
      simp [getI, List.getD_eq_getElem?_getD, List.getElem?_eq_getElem hj]
    have hset : (l.set i (getI l j))[j] = l[j] := by
      rw [List.getElem_set]
      simp [hij]
    rw [hset, hgi, hgj]
    have hci : l[i] = b → 1 ≤ l.count b := by
      intro hb; exact hb ▸ List.one_le_count_iff.mpr (List.getElem_mem hi)
    have hcj : l[j] = b → 1 ≤ l.count b := by
      intro hb; exact hb ▸ List.one_le_count_iff.mpr (List.getElem_mem hj)
    by_cases hbi : l[i] = b <;> by_cases hbj : l[j] = b <;>
      simp [hbi, hbj] <;> omega

/-- The values stored at indices `[a, b)`. -/
def sliceI (l : List Int) (a b : Nat) : List Int := (l.drop a).take (b - a)

theorem length_slice (l : List Int) (a b : Nat) (hab : a ≤ b) (hb : b ≤ l.length) :
    (sliceI l a b).length = b - a := by
  simp [sliceI]
  omega

theorem getElem_slice (l : List Int) (a b t : Nat) (ht : t < (sliceI l a b).length) :
    (sliceI l a b)[t] = getI l (a + t) := by
  have h1 : t < ((l.drop a).take (b - a)).length := ht
  have h2 : t < (l.drop a).length := by
    simp at h1 ⊢
    omega
  have h3 : a + t < l.length := by
    simp at h2
    omega
  simp only [sliceI]
  rw [List.getElem_take, List.getElem_drop]
  simp [getI, List.getD_eq_getElem?_getD, List.getElem?_eq_getElem h3]

theorem mem_slice_iff (l : List Int) (a b : Nat) (x : Int) (hab : a ≤ b) (hb : b ≤ l.length) :
    x ∈ sliceI l a b ↔ ∃ k, a ≤ k ∧ k < b ∧ getI l k = x := by
  rw [List.mem_iff_getElem]
  constructor
  · rintro ⟨t, ht, rfl⟩
    refine ⟨a + t, Nat.le_add_right _ _, ?_, (getElem_slice l a b t ht).symm⟩
    have := length_slice l a b hab hb
    omega
  · rintro ⟨k, hak, hkb, rfl⟩
    refine ⟨k - a, ?_, ?_⟩
    · rw [length_slice l a b hab hb]; omega
    · rw [getElem_slice]
      congr 1
      omega

theorem slice_zero_length (l : List Int) : sliceI l 0 l.length = l := by
  simp [sliceI]

/-- Lists that agree pointwise outside `[a, b)` and are permutations of each
other are also permutations on the sliceI `[a, b)`. -/
theorem perm_slice_of_agree_outside (l l' : List Int) (a b : Nat)
    (hab : a ≤ b) (hb : b ≤ l.length)
    (hlen : l'.length = l.length)
    (hperm : l'.Perm l)
    (hout : ∀ k, k < a ∨ b ≤ k → getI l' k = getI l k) :
    (sliceI l' a b).Perm (sliceI l a b) := by
  have hb' : b ≤ l'.length := by omega
  have htake : l'.take a = l.take a := by
    apply List.ext_getElem
    · simp; omega
    · intro n h1 h2
      rw [List.getElem_take, List.getElem_take]
      have hn : n < l.length := by simp at h2; omega
      have hn' : n < l'.length := by omega
      have := hout n (Or.inl (by simp at h1; omega))
      simpa [getI, List.getD_eq_getElem?_getD, List.getElem?_eq_getElem hn,
        List.getElem?_eq_getElem hn'] using this
  have hdrop : l'.drop b = l.drop b := by
    apply List.ext_getElem
    · simp; omega
    · intro n h1 h2
      rw [List.getElem_drop, List.getElem_drop]
      have hn : b + n < l.length := by simp at h2; omega
      have hn' : b + n < l'.length := by omega
      have := hout (b + n) (Or.inr (by omega))
      simpa [getI, List.getD_eq_getElem?_getD, List.getElem?_eq_getElem hn,
        List.getElem?_eq_getElem hn'] using this
  have hdecomp : ∀ (m : List Int), b ≤ m.length →
      m = m.take a ++ sliceI m a b ++ m.drop b := by
    intro m hm
    rw [sliceI, List.append_assoc]
    have h1 : (m.drop a).take (b - a) ++ m.drop b = m.drop a := by
      have : m.drop b = (m.drop a).drop (b - a) := by
        rw [List.drop_drop]
        congr 1
        omega
      rw [this, List.take_append_drop]
    rw [h1, List.take_append_drop]
  have e1 := hdecomp l hb
  have e2 := hdecomp l' hb'
  have hperm2 : (l'.take a ++ sliceI l' a b ++ l'.drop b).Perm
      (l.take a ++ sliceI l a b ++ l.drop b) := by
    rw [← e1, ← e2]; exact hperm
  rw [htake, hdrop, List.append_assoc, List.append_assoc] at hperm2
  have := (List.perm_append_left_iff (l.take a)).mp hperm2
  exact (List.perm_append_right_iff (l.drop b)).mp this

/-- Sortedness of the index range `[a, b)` of a list. -/
def sortedRange (l : List Int) (a b : Nat) : Prop :=
  ∀ p q, a ≤ p → p < q → q < b → getI l p ≤ getI l q

theorem sortedRange_of_le (l : List Int) (a b : Nat) (h : b ≤ a + 1) :
    sortedRange l a b := by
  intro p q hp hpq hqb
  omega

theorem sorted_of_sortedRange (l : List Int) (h : sortedRange l 0 l.length) :
    l.Sorted (· ≤ ·) := by
  rw [List.Sorted, List.pairwise_iff_getElem]
  intro i j hi hj hij
  have := h i j (Nat.zero_le _) hij hj
  simpa [getI, List.getD_eq_getElem?_getD, List.getElem?_eq_getElem hi,
    List.getElem?_eq_getElem hj] using this

/-! ## AnimationEngine (`src/editor-script.js` lines 172–282)

State fields mirror the constructor's fields.  Canvas/DOM side effects are
modelled as follows: `renderFrame(frames[k])` appends `k` to the `rendered`
log; `clear`, `updateCanvasState`, `updateTimelineSlider`, `updateFrameInfo`
and `codeAnalyzer` highlighting touch only the DOM and are not part of the
state.  The single in-flight `setTimeout` callback scheduled by `animate()`
is the flag `pendingTimeout`; the single in-flight `requestAnimationFrame`
callback (`this.animationId`) is the flag `pendingRAF`.  The browser firing
those callbacks is the transitions `fireTimeout` / `fireRAF`. -/

structure EngineState (α : Type) where
  frames : List α
  totalFrames : Nat
  currentFrame : Nat
  isPlaying : Bool
  isPaused : Bool
  animationSpeed : Int
  pendingTimeout : Bool
  pendingRAF : Bool
  rendered : List Nat
  deriving Repr, DecidableEq

namespace EngineState

/-- `setFrames(frames)` (lines 200–205): stores the sequence, its length and
resets `currentFrame`; `updateTimelineSlider()` is DOM-only. -/
def setFrames {α : Type} (s : EngineState α) (fs : List α) : EngineState α :=
  { s with frames := fs, totalFrames := fs.length, currentFrame := 0 }

/-- `animate()` (lines 265–282), up to its suspension point: returns if not
playing or paused, otherwise schedules the `setTimeout` callback. -/
def animate {α : Type} (s : EngineState α) : EngineState α :=
  if ¬s.isPlaying ∨ s.isPaused then s
  else { s with pendingTimeout := true }

/-- The body of the `setTimeout` callback inside `animate()`: advance and
render if not at the last frame (scheduling the next `requestAnimationFrame`),
otherwise end the run. -/
def fireTimeout {α : Type} (s : EngineState α) : EngineState α :=
  if ¬s.pendingTimeout then s
  else if s.currentFrame < s.totalFrames - 1 then
    { s with pendingTimeout := false,
             currentFrame := s.currentFrame + 1,
             rendered := s.rendered ++ [s.currentFrame + 1],
             pendingRAF := true }
  else
    { s with pendingTimeout := false, isPlaying := false }

/-- The `requestAnimationFrame` callback `() => this.animate()`. -/
def fireRAF {α : Type} (s : EngineState α) : EngineState α :=
  if s.pendingRAF then animate { s with pendingRAF := false } else s

/-- `play()` (lines 207–214). -/
def play {α : Type} (s : EngineState α) : EngineState α :=
  if s.frames.length = 0 then s
  else animate { s with isPlaying := true, isPaused := false }

/-- `pause()` (lines 216–223): `cancelAnimationFrame(this.animationId)`
cancels the pending `requestAnimationFrame` callback (and only that). -/
def pause {α : Type} (s : EngineState α) : EngineState α :=
  { s with isPaused := true, isPlaying := false, pendingRAF := false }

/-- `stop()` (lines 225–235): flags cleared, `currentFrame` reset,
`cancelAnimationFrame(this.animationId)` cancels only the pending
`requestAnimationFrame` callback — a pending `setTimeout` callback from
`animate()` is untouched. -/
def stop {α : Type} (s : EngineState α) : EngineState α :=
  { s with isPlaying := false, isPaused := false, currentFrame := 0,
           pendingRAF := false }

/-- `stepForward()` (lines 237–243). -/
def stepForward {α : Type} (s : EngineState α) : EngineState α :=
  if s.currentFrame < s.totalFrames - 1 then
    { s with currentFrame := s.currentFrame + 1,
             rendered := s.rendered ++ [s.currentFrame + 1] }
  else s

/-- `stepBackward()` (lines 245–251). -/
def stepBackward {α : Type} (s : EngineState α) : EngineState α :=
  if 0 < s.currentFrame then
    { s with currentFrame := s.currentFrame - 1,
             rendered := s.rendered ++ [s.currentFrame - 1] }
  else s

/-- `goToFrame(frameIndex)` (lines 253–259); the slider handler can pass any
integer, so the argument is an `Int`. -/
def goToFrame {α : Type} (s : EngineState α) (frameIndex : Int) : EngineState α :=
  if 0 ≤ frameIndex ∧ frameIndex < (s.totalFrames : Int) then
    { s with currentFrame := frameIndex.toNat,
             rendered := s.rendered ++ [frameIndex.toNat] }
  else s

/-- `setSpeed(speed)` (lines 261–263). -/
def setSpeed {α : Type} (s : EngineState α) (speed : Int) : EngineState α :=
  { s with animationSpeed := speed }

/-- The well-formedness invariant of a state with a loaded sequence. -/
def Inv {α : Type} (s : EngineState α) : Prop :=
  s.totalFrames = s.frames.length ∧ s.currentFrame < s.totalFrames

end EngineState

/-! ## Engine claims -/

instance {α : Type} (s : EngineState α) : Decidable s.Inv := by
  unfold EngineState.Inv
  infer_instance

/-- A sample loaded engine state (three frames, position 0) used by concrete
counterexamples and witnesses. -/
def engineSample : EngineState Nat :=
  { frames := [10, 20, 30], totalFrames := 3, currentFrame := 0,
    isPlaying := false, isPaused := false, animationSpeed := 5,
    pendingTimeout := false, pendingRAF := false, rendered := [] }

/-- A two-frame engine state that is currently playing with the `setTimeout`
advancement of `animate()` pending. -/
def enginePlaying : EngineState Nat :=
  { frames := [10, 20], totalFrames := 2, currentFrame := 0,
    isPlaying := true, isPaused := false, animationSpeed := 5,
    pendingTimeout := true, pendingRAF := false, rendered := [] }

/-- C2 (code bug): `stop()` resets position and flags, but
`cancelAnimationFrame` cannot cancel the `setTimeout` callback scheduled by
`animate()`; the stale callback then advances the position to 1 and renders
frame 1 after `stop` has returned. -/
theorem stop_stale_timeout_advances :
    (enginePlaying.stop).currentFrame = 0 ∧
    (enginePlaying.stop).isPlaying = false ∧
    (enginePlaying.stop).isPaused = false ∧
    (enginePlaying.stop).pendingTimeout = true ∧
    ((enginePlaying.stop).fireTimeout).currentFrame = 1 ∧
    ((enginePlaying.stop).fireTimeout).rendered = [1] := by
  decide

/-- C3: with a non-empty sequence loaded, every engine operation keeps
`0 ≤ position < length` (position is a `Nat`, so only the upper bound is
stated), `stepForward` at the last index is the identity, and `stepBackward`
at index 0 is the identity. -/
theorem engine_position_invariant {α : Type} (s : EngineState α) (h : s.Inv)
    (idx : Int) (sp : Int) :
    (s.stepForward).Inv ∧ (s.stepBackward).Inv ∧ (s.goToFrame idx).Inv ∧
    (s.play).Inv ∧ (s.pause).Inv ∧ (s.stop).Inv ∧ (s.setSpeed sp).Inv ∧
    (s.fireTimeout).Inv ∧ (s.fireRAF).Inv ∧
    (s.currentFrame = s.totalFrames - 1 → s.stepForward = s) ∧
    (s.currentFrame = 0 → s.stepBackward = s) := by
  obtain ⟨hlen, hpos⟩ := h
  refine ⟨?_, ?_, ?_, ?_, ?_, ?_, ?_, ?_, ?_, ?_, ?_⟩
  · unfold EngineState.stepForward
    split <;> exact ⟨hlen, by first | omega | (simp ; omega)⟩
  · unfold EngineState.stepBackward
    split <;> exact ⟨hlen, by first | omega | (simp ; omega)⟩
  · unfold EngineState.goToFrame
    split <;> exact ⟨hlen, by first | omega | (simp ; omega)⟩
  · unfold EngineState.play EngineState.animate
    split
    · exact ⟨hlen, hpos⟩
    · split <;> exact ⟨hlen, hpos⟩
  · exact ⟨hlen, hpos⟩
  · unfold EngineState.stop
    exact ⟨hlen, by simp ; omega⟩
  · exact ⟨hlen, hpos⟩
  · unfold EngineState.fireTimeout
    split
    · exact ⟨hlen, hpos⟩
    · split <;> exact ⟨hlen, by first | omega | (simp ; omega)⟩
  · unfold EngineState.fireRAF EngineState.animate
    split
    · split <;> exact ⟨hlen, hpos⟩
    · exact ⟨hlen, hpos⟩
  · intro hlast
    unfold EngineState.stepForward
    split
    · omega
    · rfl
  · intro h0
    unfold EngineState.stepBackward
    split
    · omega
    · rfl

theorem engine_position_invariant_witness :
    engineSample.Inv ∧ (engineSample.stepForward).Inv :=
  ⟨by decide, (engine_position_invariant engineSample (by decide) 0 0).1⟩

/-- C4 (counterexample): on a loaded 3-frame sequence at position 0, calling
`goToFrame 5` does not clamp to position 2 — the argument is out of range, so
the call is ignored and nothing is rendered. -/
theorem goToFrame_does_not_clamp :
    engineSample.goToFrame 5 = engineSample ∧
    (engineSample.goToFrame 5).currentFrame ≠ 2 ∧
    (engineSample.goToFrame 5).rendered = [] := by
  decide

/-- C4 (amended): `goToFrame(index)` sets the position to `index` and renders
it immediately when `0 ≤ index < length`; an out-of-range index (negative or
`≥ length`) is ignored — the state, including the position, is unchanged and
nothing is rendered (no clamping takes place). -/
theorem goToFrame_in_range_or_noop {α : Type} (s : EngineState α) (idx : Int) :
    (0 ≤ idx ∧ idx < (s.totalFrames : Int) →
      (s.goToFrame idx).currentFrame = idx.toNat ∧
      (s.goToFrame idx).rendered = s.rendered ++ [idx.toNat] ∧
      (s.goToFrame idx).frames = s.frames) ∧
    (¬(0 ≤ idx ∧ idx < (s.totalFrames : Int)) → s.goToFrame idx = s) := by
  constructor
  · intro hin
    unfold EngineState.goToFrame
    rw [if_pos hin]
    exact ⟨rfl, rfl, rfl⟩
  · intro hout
    unfold EngineState.goToFrame
    rw [if_neg hout]

theorem goToFrame_in_range_or_noop_witness :
    (engineSample.goToFrame 1).currentFrame = 1 ∧
    engineSample.goToFrame 5 = engineSample :=
  ⟨((goToFrame_in_range_or_noop engineSample 1).1 (by decide)).1,
   (goToFrame_in_range_or_noop engineSample 5).2 (by decide)⟩

/-- C5 (counterexample): `setFrames` called on a playing engine with a
previously rendered frame accepts the empty sequence, leaves the status
playing (`isPlaying = true`), and does not clear the rendered output. -/
theorem setFrames_no_reset_no_validation :
    ((enginePlaying.setFrames []).frames = ([] : List Nat)) ∧
    (enginePlaying.setFrames []).isPlaying = true ∧
    (enginePlaying.setFrames []).rendered = enginePlaying.rendered := by
  decide

/-- C5 (amended): `setFrames(frames)` replaces the sequence and resets the
position to 0, but it performs no validation (an empty sequence is accepted —
`play()` separately no-ops on an empty sequence), does not change the
playing/paused status, and does not clear the rendered output or cancel
pending callbacks. -/
theorem setFrames_behavior {α : Type} (s : EngineState α) (fs : List α) :
    (s.setFrames fs).frames = fs ∧
    (s.setFrames fs).totalFrames = fs.length ∧
    (s.setFrames fs).currentFrame = 0 ∧
    (s.setFrames fs).isPlaying = s.isPlaying ∧
    (s.setFrames fs).isPaused = s.isPaused ∧
    (s.setFrames fs).rendered = s.rendered ∧
    (s.setFrames fs).pendingTimeout = s.pendingTimeout ∧
    (s.frames.length = 0 → s.play = s) := by
  refine ⟨rfl, rfl, rfl, rfl, rfl, rfl, rfl, ?_⟩
  intro hempty
  unfold EngineState.play
  rw [if_pos hempty]

theorem setFrames_behavior_witness :
    ((enginePlaying.setFrames [7]).currentFrame = 0) ∧
    (enginePlaying.setFrames [7]).isPlaying = true :=
  ⟨(setFrames_behavior enginePlaying [7]).2.2.1,
   (setFrames_behavior enginePlaying [7]).2.2.2.1⟩

/-- C10: one `stepForward` followed by one `stepBackward` returns the position
to `p` whenever `p < length - 1`, and one `stepBackward` followed by one
`stepForward` returns it to `p` whenever `0 < p` (with a loaded sequence). -/
theorem step_forward_backward_roundtrip {α : Type} (s : EngineState α) (h : s.Inv) :
    (s.currentFrame < s.totalFrames - 1 →
      ((s.stepForward).stepBackward).currentFrame = s.currentFrame) ∧
    (0 < s.currentFrame →
      ((s.stepBackward).stepForward).currentFrame = s.currentFrame) := by
  obtain ⟨hlen, hpos⟩ := h
  constructor
  · intro hlt
    unfold EngineState.stepForward EngineState.stepBackward
    rw [if_pos hlt]
    simp
  · intro hgt
    unfold EngineState.stepBackward EngineState.stepForward
    rw [if_pos hgt]
    rw [if_pos (by simp ; omega)]
    simp
    omega

theorem step_forward_backward_roundtrip_witness :
    engineSample.Inv ∧
    ((engineSample.stepForward).stepBackward).currentFrame = engineSample.currentFrame :=
  ⟨by decide, (step_forward_backward_roundtrip engineSample (by decide)).1 (by decide)⟩

/-! ## CodeAnalyzer.estimateComplexity (`src/editor-script.js` lines 113–120)

Source text is modelled as `List Char`.  `(code.match(/for\s*\(/g) || []).length`
is the number of non-overlapping, leftmost matches of `for`, then any
whitespace, then `(`; the scanner below advances past each match (or by one
character after a failed attempt), exactly like the global regex. -/

/-- JavaScript's `\s` character class. -/
def jsWhitespace (c : Char) : Bool :=
  c = ' ' || c = '\t' || c = '\n' || c = '\r' || c = '\x0b' || c = '\x0c' ||
  c = ' ' || c = ' ' || (' ' ≤ c && c ≤ ' ') ||
  c = ' ' || c = ' ' || c = ' ' || c = ' ' ||
  c = '　' || c = '﻿'

/-- After the literal `for`, consume `\s*` then `(`; returns the remaining
text on a match. -/
def forWsParen : List Char → Option (List Char)
  | [] => none
  | c :: rest =>
    if c = '(' then some rest
    else if jsWhitespace c then forWsParen rest
    else none

/-- Scanner for the global regex `/for\s*\(/g`; the fuel is an upper bound on
the number of scan steps (each step consumes at least one character). -/
def countForLoopAux : Nat → List Char → Nat
  | 0, _ => 0
  | _ + 1, [] => 0
  | fuel + 1, 'f' :: 'o' :: 'r' :: rest =>
    match forWsParen rest with
    | some rest' => countForLoopAux fuel rest' + 1
    | none => countForLoopAux fuel ('o' :: 'r' :: rest)
  | fuel + 1, _ :: rest => countForLoopAux fuel rest

/-- `(code.match(/for\s*\(/g) || []).length`. -/
def countForLoop (code : List Char) : Nat :=
  countForLoopAux code.length code

/-- `code.includes(needle)` on character lists. -/
def containsSub (needle : List Char) : List Char → Bool
  | [] => needle.isEmpty
  | c :: rest => needle.isPrefixOf (c :: rest) || containsSub needle rest

/-- `CodeAnalyzer.estimateComplexity(code)`, transcribed clause for clause. -/
def estimateComplexity (code : List Char) : String :=
  let nestedLoops := countForLoop code
  if nestedLoops ≥ 3 then "O(n³)"
  else if nestedLoops ≥ 2 then "O(n²)"
  else if nestedLoops ≥ 1 then "O(n)"
  else if containsSub "log".toList code || containsSub "binary".toList code then "O(log n)"
  else "O(1)"

/-- Modelled from the amended claim's words, for comparison with
`estimateComplexity`: the `for (` token count maps to O(n)/O(n²)/O(n³), and
only when no such token is present does the logarithmic/binary vocabulary
force O(log n) (otherwise O(1)). -/
def complexityEstimateSpec (code : List Char) : String :=
  if countForLoop code = 0 then
    if containsSub "log".toList code || containsSub "binary".toList code then "O(log n)"
    else "O(1)"
  else if countForLoop code ≥ 3 then "O(n³)"
  else if countForLoop code = 2 then "O(n²)"
  else "O(n)"

/-- C8 (counterexample): the text `"for (binary"` mentions binary-search
vocabulary and contains a loop token, yet the estimate is `O(n)`, not
`O(log n)` — the override does not apply when loop tokens are present. -/
theorem estimateComplexity_no_override_with_loops :
    containsSub "binary".toList "for (binary".toList = true ∧
    estimateComplexity "for (binary".toList = "O(n)" ∧
    estimateComplexity "for (binary".toList ≠ "O(log n)" := by
  refine ⟨by decide, by decide, by decide⟩

/-- C8 (amended): the complexity estimate counts `for (` loop-opening tokens
and maps the count to O(n)/O(n²)/O(n³) (3 or more giving O(n³)); only when
the count is zero is the result O(log n) for texts mentioning
logarithmic/binary-search vocabulary, and O(1) otherwise. -/
theorem estimateComplexity_eq_spec (code : List Char) :
    estimateComplexity code = complexityEstimateSpec code := by
  simp only [estimateComplexity, complexityEstimateSpec]
  split_ifs <;> first | rfl | (exfalso ; omega)

/-! ## Frames and the codeLines annotation object

Array frames are the object literals pushed by the sorting producers
(`SortingVisualizer.generate*SortFrames`).  A frame without a `sorted` key is
modelled with `sorted = none`.  `codeLine: codeLines.x || null` is `jsOrNull`
(JS `||` treats the number `0` and a missing key as falsy). -/

structure CodeLines where
  init : Option Nat := none
  compare : Option Nat := none
  swap : Option Nat := none
  sorted : Option Nat := none
  complete : Option Nat := none
  findMin : Option Nat := none
  newMin : Option Nat := none
  insert : Option Nat := none
  shift : Option Nat := none
  place : Option Nat := none
  divide : Option Nat := none
  copy : Option Nat := none
  pivot : Option Nat := none
  deriving Repr, DecidableEq, Inhabited

/-- JS `x || null` for an optional line number: a missing key and `0` are
falsy and give `null`. -/
def jsOrNull (x : Option Nat) : Option Nat :=
  match x with
  | some 0 => none
  | some n => some n
  | none => none

structure ArrayFrame where
  array : List Int
  highlights : List Nat
  comparisons : List Nat
  sorted : Option (List Nat) := none
  algorithm : String
  description : String
  codeLine : Option Nat
  deriving Repr, DecidableEq, Inhabited

/-! ## Bubble sort producer (`generateBubbleSortFrames`, lines 561–633) -/

/-- Inner loop `for (let j = 0; j < n - i - 1; j++)`; `count` is the number
of remaining iterations, i.e. `(n - i - 1) - j`. -/
def bubbleInner (cl : CodeLines) : Nat → List Int → Nat → List Int × List ArrayFrame
  | 0, arr, _ => (arr, [])
  | count + 1, arr, j =>
    let cmpF : ArrayFrame :=
      { array := arr, highlights := [], comparisons := [j, j + 1],
        algorithm := "Bubble Sort",
        description := s!"Comparing elements at positions {j} and {j + 1}",
        codeLine := jsOrNull cl.compare }
    if getI arr j > getI arr (j + 1) then
      let arr2 := swapL arr j (j + 1)
      let swapF : ArrayFrame :=
        { array := arr2, highlights := [j, j + 1], comparisons := [],
          algorithm := "Bubble Sort",
          description := s!"Swapped elements at positions {j} and {j + 1}",
          codeLine := jsOrNull cl.swap }
      let res := bubbleInner cl count arr2 (j + 1)
      (res.1, cmpF :: swapF :: res.2)
    else
      let res := bubbleInner cl count arr (j + 1)
      (res.1, cmpF :: res.2)

/-- Outer loop `for (let i = 0; i < n - 1; i++)`; `count = (n - 1) - i`. -/
def bubbleOuter (cl : CodeLines) (n : Nat) : Nat → List Int → Nat → List Int × List ArrayFrame
  | 0, arr, _ => (arr, [])
  | count + 1, arr, i =>
    let inner := bubbleInner cl (n - i - 1) arr 0
    let sortedF : ArrayFrame :=
      { array := inner.1, highlights := [], comparisons := [],
        sorted := some [n - i - 1],
        algorithm := "Bubble Sort",
        description := s!"Element at position {n - i - 1} is now in correct position",
        codeLine := jsOrNull cl.sorted }
    let outer := bubbleOuter cl n count inner.1 (i + 1)
    (outer.1, inner.2 ++ sortedF :: outer.2)

def generateBubbleSortFrames (array : List Int) (cl : CodeLines) : List ArrayFrame :=
  let arr := array
  let n := arr.length
  let initF : ArrayFrame :=
    { array := arr, highlights := [], comparisons := [],
      algorithm := "Bubble Sort", description := "Initial array",
      codeLine := jsOrNull cl.init }
  let loop := bubbleOuter cl n (n - 1) arr 0
  let finalF : ArrayFrame :=
    { array := loop.1, highlights := [], comparisons := [],
      sorted := some (List.range n),
      algorithm := "Bubble Sort", description := "Array is fully sorted!",
      codeLine := jsOrNull cl.complete }
  initF :: loop.2 ++ [finalF]

/-! ## Selection sort producer (`generateSelectionSortFrames`, lines 635–730) -/

/-- Inner loop `for (let j = i + 1; j < n; j++)` tracking `minIdx`;
`count = n - j`.  The array is not mutated here. -/
def selInner (cl : CodeLines) (arr : List Int) : Nat → Nat → Nat → Nat × List ArrayFrame
  | 0, minIdx, _ => (minIdx, [])
  | count + 1, minIdx, j =>
    let cmpF : ArrayFrame :=
      { array := arr, highlights := [minIdx], comparisons := [j],
        algorithm := "Selection Sort",
        description := s!"Comparing element at position {j} with current minimum",
        codeLine := jsOrNull cl.compare }
    if getI arr j < getI arr minIdx then
      let newMinF : ArrayFrame :=
        { array := arr, highlights := [j], comparisons := [],
          algorithm := "Selection Sort",
          description := s!"New minimum found at position {j}",
          codeLine := jsOrNull cl.newMin }
      let res := selInner cl arr count j (j + 1)
      (res.1, cmpF :: newMinF :: res.2)
    else
      let res := selInner cl arr count minIdx (j + 1)
      (res.1, cmpF :: res.2)

/-- Outer loop `for (let i = 0; i < n - 1; i++)`; `count = (n - 1) - i`. -/
def selOuter (cl : CodeLines) (n : Nat) : Nat → List Int → Nat → List Int × List ArrayFrame
  | 0, arr, _ => (arr, [])
  | count + 1, arr, i =>
    let markF : ArrayFrame :=
      { array := arr, highlights := [i], comparisons := [],
        algorithm := "Selection Sort",
        description := s!"Finding minimum element from position {i}",
        codeLine := jsOrNull cl.findMin }
    let inner := selInner cl arr (n - (i + 1)) i (i + 1)
    let minIdx := inner.1
    let swapStep :=
      if minIdx ≠ i then
        let arr2 := swapL arr i minIdx
        (arr2,
          [({ array := arr2, highlights := [i, minIdx], comparisons := [],
              algorithm := "Selection Sort",
              description := s!"Swapped elements at positions {i} and {minIdx}",
              codeLine := jsOrNull cl.swap } : ArrayFrame)])
      else (arr, [])
    let sortedF : ArrayFrame :=
      { array := swapStep.1, highlights := [], comparisons := [],
        sorted := some (List.range (i + 1)),
        algorithm := "Selection Sort",
        description := s!"Position {i} is now sorted",
        codeLine := jsOrNull cl.sorted }
    let outer := selOuter cl n count swapStep.1 (i + 1)
    (outer.1, markF :: inner.2 ++ swapStep.2 ++ sortedF :: outer.2)

def generateSelectionSortFrames (array : List Int) (cl : CodeLines) : List ArrayFrame :=
  let arr := array
  let n := arr.length
  let initF : ArrayFrame :=
    { array := arr, highlights := [], comparisons := [],
      algorithm := "Selection Sort", description := "Initial array",
      codeLine := jsOrNull cl.init }
  let loop := selOuter cl n (n - 1) arr 0
  let finalF : ArrayFrame :=
    { array := loop.1, highlights := [], comparisons := [],
      sorted := some (List.range n),
      algorithm := "Selection Sort", description := "Array is fully sorted!",
      codeLine := jsOrNull cl.complete }
  initF :: loop.2 ++ [finalF]

/-! ## Insertion sort producer (`generateInsertionSortFrames`, lines 732–822) -/

/-- The `while (j >= 0 && arr[j] > key)` shifting loop.  `fuel = j + 1`
(`j` would reach `-1`; the `fuel = 0` case is that exit, returning placement
position `j + 1 = 0`).  Returns the shifted array, the emitted frames and the
final placement position `j + 1`. -/
def insWhile (cl : CodeLines) (key : Int) (i : Nat) :
    Nat → List Int → Nat → List Int × List ArrayFrame × Nat
  | 0, arr, _ => (arr, [], 0)
  | fuel + 1, arr, j =>
    if getI arr j > key then
      let cmpF : ArrayFrame :=
        { array := arr, highlights := [i], comparisons := [j],
          sorted := some (List.range i),
          algorithm := "Insertion Sort",
          description := s!"Comparing {key} with {getI arr j}",
          codeLine := jsOrNull cl.compare }
      let arr2 := arr.set (j + 1) (getI arr j)
      let shiftedVal := getI arr2 j
      let shiftF : ArrayFrame :=
        { array := arr2, highlights := [j + 1], comparisons := [],
          sorted := some (List.range i),
          algorithm := "Insertion Sort",
          description := s!"Shifting {shiftedVal} to the right",
          codeLine := jsOrNull cl.shift }
      let res := insWhile cl key i fuel arr2 (j - 1)
      (res.1, cmpF :: shiftF :: res.2.1, res.2.2)
    else (arr, [], j + 1)

/-- Outer loop `for (let i = 1; i < n; i++)`; `count = n - i`. -/
def insOuter (cl : CodeLines) (n : Nat) : Nat → List Int → Nat → List Int × List ArrayFrame
  | 0, arr, _ => (arr, [])
  | count + 1, arr, i =>
    let key := getI arr i
    let insertF : ArrayFrame :=
      { array := arr, highlights := [i], comparisons := [],
        sorted := some (List.range i),
        algorithm := "Insertion Sort",
        description := s!"Inserting element {key} into sorted portion",
        codeLine := jsOrNull cl.insert }
    let shifted := insWhile cl key i i arr (i - 1)
    let pos := shifted.2.2
    let arr2 := shifted.1.set pos key
    let placeF : ArrayFrame :=
      { array := arr2, highlights := [pos], comparisons := [],
        sorted := some (List.range (i + 1)),
        algorithm := "Insertion Sort",
        description := s!"Inserted {key} at position {pos}",
        codeLine := jsOrNull cl.place }
    let outer := insOuter cl n count arr2 (i + 1)
    (outer.1, insertF :: shifted.2.1 ++ placeF :: outer.2)

def generateInsertionSortFrames (array : List Int) (cl : CodeLines) : List ArrayFrame :=
  let arr := array
  let n := arr.length
  let initF : ArrayFrame :=
    { array := arr, highlights := [], comparisons := [],
      sorted := some [0],
      algorithm := "Insertion Sort",
      description := "Initial array - first element is considered sorted",
      codeLine := jsOrNull cl.init }
  let loop := insOuter cl n (n - 1) arr 1
  let finalF : ArrayFrame :=
    { array := loop.1, highlights := [], comparisons := [],
      sorted := some (List.range n),
      algorithm := "Insertion Sort", description := "Array is fully sorted!",
      codeLine := jsOrNull cl.complete }
  initF :: loop.2 ++ [finalF]

/-! ## Merge sort producer (`generateMergeSortFrames`, lines 824–945) -/

/-- The main merge loop `while (i < leftArr.length && j < rightArr.length)`.
The fuel bounds the number of iterations (`leftArr.length + rightArr.length`
always suffices; when the fuel hits 0 the guard is false anyway under that
choice).  Returns `(arr, frames, i, j, k)` after the loop. -/
def mergeMain (cl : CodeLines) (leftArr rightArr : List Int) (left mid : Nat) :
    Nat → List Int → Nat → Nat → Nat → List Int × List ArrayFrame × Nat × Nat × Nat
  | 0, arr, i, j, k => (arr, [], i, j, k)
  | fuel + 1, arr, i, j, k =>
    if i < leftArr.length ∧ j < rightArr.length then
      let lv := getI leftArr i
      let rv := getI rightArr j
      let cmpF : ArrayFrame :=
        { array := arr, highlights := [k], comparisons := [left + i, mid + 1 + j],
          algorithm := "Merge Sort",
          description := s!"Comparing {lv} and {rv}",
          codeLine := jsOrNull cl.compare }
      let next := if lv ≤ rv then (arr.set k lv, i + 1, j) else (arr.set k rv, i, j + 1)
      let arr2 := next.1
      let placedVal := getI arr2 k
      let placeF : ArrayFrame :=
        { array := arr2, highlights := [k], comparisons := [],
          algorithm := "Merge Sort",
          description := s!"Placed {placedVal} at position {k}",
          codeLine := jsOrNull cl.place }
      let res := mergeMain cl leftArr rightArr left mid fuel arr2 next.2.1 next.2.2 (k + 1)
      (res.1, cmpF :: placeF :: res.2.1, res.2.2)
    else (arr, [], i, j, k)

/-- The tail loop `while (i < leftArr.length)`; `count = leftArr.length - i`. -/
def mergeCopy (cl : CodeLines) (src : List Int) :
    Nat → List Int → Nat → Nat → List Int × List ArrayFrame × Nat
  | 0, arr, _, k => (arr, [], k)
  | count + 1, arr, i, k =>
    let arr2 := arr.set k (getI src i)
    let copiedVal := getI arr2 k
    let copyF : ArrayFrame :=
      { array := arr2, highlights := [k], comparisons := [],
        algorithm := "Merge Sort",
        description := s!"Copying remaining element {copiedVal}",
        codeLine := jsOrNull cl.copy }
    let res := mergeCopy cl src count arr2 (i + 1) (k + 1)
    (res.1, copyF :: res.2.1, res.2.2)

/-- `merge(arr, left, mid, right)` (lines 859–928). -/
def mergeRange (cl : CodeLines) (arr : List Int) (left mid right : Nat) :
    List Int × List ArrayFrame :=
  let leftArr := sliceI arr left (mid + 1)
  let rightArr := sliceI arr (mid + 1) (right + 1)
  let main := mergeMain cl leftArr rightArr left mid
    (leftArr.length + rightArr.length) arr 0 0 left
  let arr1 := main.1
  let i1 := main.2.2.1
  let j1 := main.2.2.2.1
  let k1 := main.2.2.2.2
  let copyL := mergeCopy cl leftArr (leftArr.length - i1) arr1 i1 k1
  let copyR := mergeCopy cl rightArr (rightArr.length - j1) copyL.1 j1 copyL.2.2
  (copyR.1, main.2.1 ++ copyL.2.1 ++ copyR.2.1)

/-- The recursive `mergeSort(arr, left, right)` closure (lines 838–857).  The
fuel bounds the recursion depth; `right - left + 1` always suffices, and when
it is exhausted `left ≥ right` holds, which is the source's own base case. -/
def mergeSortRec (cl : CodeLines) : Nat → List Int → Nat → Nat → List Int × List ArrayFrame
  | 0, arr, _, _ => (arr, [])
  | fuel + 1, arr, left, right =>
    if left ≥ right then (arr, [])
    else
      let mid := (left + right) / 2
      let divideF : ArrayFrame :=
        { array := arr, highlights := List.range' left (right - left + 1),
          comparisons := [],
          algorithm := "Merge Sort",
          description := s!"Dividing array from {left} to {right}",
          codeLine := jsOrNull cl.divide }
      let recL := mergeSortRec cl fuel arr left mid
      let recR := mergeSortRec cl fuel recL.1 (mid + 1) right
      let merged := mergeRange cl recR.1 left mid right
      (merged.1, divideF :: (recL.2 ++ recR.2 ++ merged.2))

def generateMergeSortFrames (array : List Int) (cl : CodeLines) : List ArrayFrame :=
  let arr := array
  let initF : ArrayFrame :=
    { array := arr, highlights := [], comparisons := [],
      algorithm := "Merge Sort", description := "Initial array",
      codeLine := jsOrNull cl.init }
  let loop := mergeSortRec cl arr.length arr 0 (arr.length - 1)
  let finalF : ArrayFrame :=
    { array := loop.1, highlights := [], comparisons := [],
      sorted := some (List.range loop.1.length),
      algorithm := "Merge Sort", description := "Array is fully sorted!",
      codeLine := jsOrNull cl.complete }
  initF :: loop.2 ++ [finalF]

/-! ## Quick sort producer (`generateQuickSortFrames`, lines 947–1040) -/

/-- The partition scan `for (let j = low; j < high; j++)` with the boundary
`i` (which starts at `low - 1`, so it is an `Int`); `count = high - j`. -/
def quickPartitionLoop (cl : CodeLines) (pivot : Int) (high : Nat) :
    Nat → List Int → Int → Nat → List Int × List ArrayFrame × Int
  | 0, arr, i, _ => (arr, [], i)
  | count + 1, arr, i, j =>
    let jv := getI arr j
    let cmpF : ArrayFrame :=
      { array := arr, highlights := [high], comparisons := [j],
        algorithm := "Quick Sort",
        description := s!"Comparing {jv} with pivot {pivot}",
        codeLine := jsOrNull cl.compare }
    if getI arr j < pivot then
      let i2 := i + 1
      let arr2 := swapL arr i2.toNat j
      let newJv := getI arr2 j
      let newIv := getI arr2 i2.toNat
      let swapF : ArrayFrame :=
        { array := arr2, highlights := [i2.toNat, j], comparisons := [],
          algorithm := "Quick Sort",
          description := s!"Swapped {newJv} and {newIv}",
          codeLine := jsOrNull cl.swap }
      let res := quickPartitionLoop cl pivot high count arr2 i2 (j + 1)
      (res.1, cmpF :: swapF :: res.2.1, res.2.2)
    else
      let res := quickPartitionLoop cl pivot high count arr i (j + 1)
      (res.1, cmpF :: res.2.1, res.2.2)

/-- `partition(arr, low, high)` (lines 969–1023), returning the new array,
its frames and the returned partition index `i + 1`. -/
def quickPartition (cl : CodeLines) (arr : List Int) (low high : Nat) :
    List Int × List ArrayFrame × Nat :=
  let pivot := getI arr high
  let pivotF : ArrayFrame :=
    { array := arr, highlights := [high], comparisons := [],
      algorithm := "Quick Sort",
      description := s!"Pivot selected: {pivot} at position {high}",
      codeLine := jsOrNull cl.pivot }
  let scan := quickPartitionLoop cl pivot high (high - low) arr ((low : Int) - 1) low
  let parIdx := (scan.2.2 + 1).toNat
  let arr2 := swapL scan.1 parIdx high
  let placeF : ArrayFrame :=
    { array := arr2, highlights := [parIdx], comparisons := [],
      algorithm := "Quick Sort",
      description := s!"Pivot {pivot} placed at correct position {parIdx}",
      codeLine := jsOrNull cl.place }
  (arr2, pivotF :: scan.2.1 ++ [placeF], parIdx)

/-- The recursive `quickSort(arr, low, high)` closure (lines 961–967).  The
fuel bounds the recursion depth; the array length always suffices, and when
the fuel is exhausted `low ≥ high` holds, the source's own base case. -/
def quickSortRec (cl : CodeLines) : Nat → List Int → Nat → Nat → List Int × List ArrayFrame
  | 0, arr, _, _ => (arr, [])
  | fuel + 1, arr, low, high =>
    if low < high then
      let par := quickPartition cl arr low high
      let parIdx := par.2.2
      let recL := quickSortRec cl fuel par.1 low (parIdx - 1)
      let recR := quickSortRec cl fuel recL.1 (parIdx + 1) high
      (recR.1, par.2.1 ++ recL.2 ++ recR.2)
    else (arr, [])

def generateQuickSortFrames (array : List Int) (cl : CodeLines) : List ArrayFrame :=
  let arr := array
  let initF : ArrayFrame :=
    { array := arr, highlights := [], comparisons := [],
      algorithm := "Quick Sort", description := "Initial array",
      codeLine := jsOrNull cl.init }
  let loop := quickSortRec cl arr.length arr 0 (arr.length - 1)
  let finalF : ArrayFrame :=
    { array := loop.1, highlights := [], comparisons := [],
      sorted := some (List.range loop.1.length),
      algorithm := "Quick Sort", description := "Array is fully sorted!",
      codeLine := jsOrNull cl.complete }
  initF :: loop.2 ++ [finalF]

/-! ## Binary search producer (`generateBinarySearchFrames`, lines 1087–1163) -/

structure BinSearchFrame where
  array : List Int
  left : Int
  right : Int
  mid : Int
  target : Int
  found : Option Bool := none
  completed : Bool := false
  step : String
  codeLine : Option Nat
  deriving Repr, DecidableEq, Inhabited

/-- The `while (left <= right)` loop.  The fuel bounds the number of
iterations; the array length always suffices (each iteration shrinks
`right - left` by at least one), and when the fuel is exhausted
`left > right` holds, the loop's own exit condition.  Returns the frames and
the final `left` and `right`. -/
def binSearchLoop (array : List Int) (target : Int) (codeLines : List Nat) :
    Nat → Int → Int → Nat → List BinSearchFrame × Int × Int
  | 0, left, right, _ => ([], left, right)
  | fuel + 1, left, right, framesLen =>
    if left ≤ right then
      let mid := Int.fdiv (left + right) 2
      let mv := getI array mid.toNat
      let checkF : BinSearchFrame :=
        { array := array, left := left, right := right, mid := mid,
          target := target,
          step := s!"Checking middle element at index {mid}: {mv}",
          codeLine := codeLines.get? framesLen }
      if mv = target then
        let foundF : BinSearchFrame :=
          { array := array, left := left, right := right, mid := mid,
            target := target, found := some true, completed := true,
            step := s!"Element {target} found at index {mid}",
            codeLine := none }
        ([checkF, foundF], left, right)
      else if mv < target then
        let left2 := mid + 1
        let narrowF : BinSearchFrame :=
          { array := array, left := left2, right := right, mid := -1,
            target := target,
            step := s!"{mv} < {target}, search right half",
            codeLine := none }
        let res := binSearchLoop array target codeLines fuel left2 right (framesLen + 2)
        (checkF :: narrowF :: res.1, res.2)
      else
        let right2 := mid - 1
        let narrowF : BinSearchFrame :=
          { array := array, left := left, right := right2, mid := -1,
            target := target,
            step := s!"{mv} > {target}, search left half",
            codeLine := none }
        let res := binSearchLoop array target codeLines fuel left right2 (framesLen + 2)
        (checkF :: narrowF :: res.1, res.2)
    else ([], left, right)

def generateBinarySearchFrames (array : List Int) (target : Int)
    (codeLines : List Nat) : List BinSearchFrame :=
  let loop := binSearchLoop array target codeLines array.length
    0 ((array.length : Int) - 1) 0
  let fs := loop.1
  if fs.isEmpty || ¬((fs.getLastD default).found = some true) then
    fs ++ [{ array := array, left := loop.2.1, right := loop.2.2, mid := -1,
             target := target, found := some false, completed := true,
             step := s!"Element {target} not found in array",
             codeLine := none }]
  else fs

/-! ## Concrete-scenario claims -/

/-- C6 (counterexample): in the bubble-sort run on `[3,1,2]`, the per-pass
settled frame after the second outer pass (frame index 7) marks only index 1
as settled, not the accumulated set containing 1 and 2 claimed by the spec. -/
theorem bubble_312_second_pass_settled_not_accumulated :
    ((generateBubbleSortFrames [3, 1, 2] {}).getD 7 default).sorted = some [1] ∧
    2 ∉ (((generateBubbleSortFrames [3, 1, 2] {}).getD 7 default).sorted.getD []) := by
  decide

/-- C6 (amended): bubble sort on `[3,1,2]` yields exactly the frame event
order [initial, compare(0,1), swap(0,1) giving [1,3,2], compare(1,2),
swap(1,2) giving [1,2,3], settled marking index 2, compare(0,1), settled
marking only index 1 (each per-pass frame marks just `n - i - 1`, not the
accumulated set), final settled marking 0, 1 and 2]. -/
theorem bubble_312_frames :
    generateBubbleSortFrames [3, 1, 2] {} =
      [{ array := [3, 1, 2], highlights := [], comparisons := [],
         algorithm := "Bubble Sort", description := "Initial array",
         codeLine := none },
       { array := [3, 1, 2], highlights := [], comparisons := [0, 1],
         algorithm := "Bubble Sort",
         description := "Comparing elements at positions 0 and 1",
         codeLine := none },
       { array := [1, 3, 2], highlights := [0, 1], comparisons := [],
         algorithm := "Bubble Sort",
         description := "Swapped elements at positions 0 and 1",
         codeLine := none },
       { array := [1, 3, 2], highlights := [], comparisons := [1, 2],
         algorithm := "Bubble Sort",
         description := "Comparing elements at positions 1 and 2",
         codeLine := none },
       { array := [1, 2, 3], highlights := [1, 2], comparisons := [],
         algorithm := "Bubble Sort",
         description := "Swapped elements at positions 1 and 2",
         codeLine := none },
       { array := [1, 2, 3], highlights := [], comparisons := [],
         sorted := some [2], algorithm := "Bubble Sort",
         description := "Element at position 2 is now in correct position",
         codeLine := none },
       { array := [1, 2, 3], highlights := [], comparisons := [0, 1],
         algorithm := "Bubble Sort",
         description := "Comparing elements at positions 0 and 1",
         codeLine := none },
       { array := [1, 2, 3], highlights := [], comparisons := [],
         sorted := some [1], algorithm := "Bubble Sort",
         description := "Element at position 1 is now in correct position",
         codeLine := none },
       { array := [1, 2, 3], highlights := [], comparisons := [],
         sorted := some [0, 1, 2], algorithm := "Bubble Sort",
         description := "Array is fully sorted!",
         codeLine := none }] := by
  rfl

/-- The binary-search scenario of the spec: target 22 in the sorted array
`[11,12,22,25,34,64,90]` (the callers pass the codeLines object here, whose
`length` is undefined, so every in-loop `codeLine` lookup misses; the empty
list models that). -/
def binSearchDemo : List BinSearchFrame :=
  generateBinarySearchFrames [11, 12, 22, 25, 34, 64, 90] 22 []

/-- C7 (counterexample): the sequence's literal second frame (index 1) is the
bound-narrowing frame with `mid = -1`, not the claimed probe frame with
midpoint 1; likewise the literal third frame still has `lowBound = 0`, not 2. -/
theorem binary_search_22_second_frame_is_narrowing :
    (binSearchDemo.getD 1 default).mid = -1 ∧
    ¬((binSearchDemo.getD 1 default).mid = 1) ∧
    ¬((binSearchDemo.getD 2 default).left = 2) := by
  decide

/-- C7 (amended): searching 22 in `[11,12,22,25,34,64,90]` produces six
frames; the midpoint-evaluation frames are frames 0, 2 and 4 with
(low, high, mid) = (0,6,3), (0,2,1) and (2,2,2) respectively, each
probe (except the successful one) being followed by a bound-narrowing frame
with `mid = -1` (frames 1 and 3), and the terminal sixth frame reports
`found = true`. -/
theorem binary_search_22_frames :
    binSearchDemo.length = 6 ∧
    ((binSearchDemo.getD 0 default).left = 0 ∧
      (binSearchDemo.getD 0 default).right = 6 ∧
      (binSearchDemo.getD 0 default).mid = 3) ∧
    ((binSearchDemo.getD 1 default).left = 0 ∧
      (binSearchDemo.getD 1 default).right = 2 ∧
      (binSearchDemo.getD 1 default).mid = -1) ∧
    ((binSearchDemo.getD 2 default).left = 0 ∧
      (binSearchDemo.getD 2 default).right = 2 ∧
      (binSearchDemo.getD 2 default).mid = 1) ∧
    ((binSearchDemo.getD 3 default).left = 2 ∧
      (binSearchDemo.getD 3 default).right = 2 ∧
      (binSearchDemo.getD 3 default).mid = -1) ∧
    ((binSearchDemo.getD 4 default).left = 2 ∧
      (binSearchDemo.getD 4 default).right = 2 ∧
      (binSearchDemo.getD 4 default).mid = 2) ∧
    ((binSearchDemo.getD 5 default).found = some true ∧
      (binSearchDemo.getD 5 default).completed = true ∧
      (binSearchDemo.getLastD default).found = some true) := by
  decide

/-- C9 (counterexample): merge sort on the non-empty input `[2,1]` emits an
array-kind frame (the first placement frame, index 3) whose values `[1,1]`
are not a permutation of the input. -/
theorem merge_21_frame_not_permutation :
    ((generateMergeSortFrames [2, 1] {}).getD 3 default).array = [1, 1] ∧
    ¬(((generateMergeSortFrames [2, 1] {}).getD 3 default).array.Perm [2, 1]) := by
  decide

/-! ## Bubble sort: correctness of the embedded producer -/

theorem bubbleInner_length (cl : CodeLines) (count : Nat) :
    ∀ arr j, (bubbleInner cl count arr j).1.length = arr.length := by
  induction count with
  | zero => intro arr j; rfl
  | succ count ih =>
    intro arr j
    simp only [bubbleInner]
    split
    · dsimp only
      rw [ih, length_swapL]
    · dsimp only
      exact ih arr (j + 1)

theorem bubbleInner_perm (cl : CodeLines) (count : Nat) :
    ∀ arr j, j + count < arr.length →
      (bubbleInner cl count arr j).1.Perm arr := by
  induction count with
  | zero => intro arr j _; exact List.Perm.refl arr
  | succ count ih =>
    intro arr j hb
    simp only [bubbleInner]
    split
    · dsimp only
      have h1 : (bubbleInner cl count (swapL arr j (j + 1)) (j + 1)).1.Perm
          (swapL arr j (j + 1)) := by
        apply ih
        rw [length_swapL]
        omega
      exact h1.trans (swapL_perm arr j (j + 1) (by omega) (by omega))
    · dsimp only
      exact ih arr (j + 1) (by omega)

theorem bubbleInner_frames_perm (cl : CodeLines) (count : Nat) :
    ∀ arr j, j + count < arr.length →
      ∀ f ∈ (bubbleInner cl count arr j).2, f.array.Perm arr := by
  induction count with
  | zero => intro arr j _ f hf; exact absurd hf (by simp [bubbleInner])
  | succ count ih =>
    intro arr j hb f hf
    simp only [bubbleInner] at hf
    split at hf
    · dsimp only at hf
      have hswap : (swapL arr j (j + 1)).Perm arr :=
        swapL_perm arr j (j + 1) (by omega) (by omega)
      simp only [List.mem_cons] at hf
      rcases hf with rfl | rfl | hf
      · exact List.Perm.refl arr
      · exact hswap
      · have := ih (swapL arr j (j + 1)) (j + 1)
          (by rw [length_swapL]; omega) f hf
        exact this.trans hswap
    · dsimp only at hf
      simp only [List.mem_cons] at hf
      rcases hf with rfl | hf
      · exact List.Perm.refl arr
      · exact ih arr (j + 1) (by omega) f hf

theorem bubbleInner_untouched (cl : CodeLines) (count : Nat) :
    ∀ arr j k, j + count < k →
      getI (bubbleInner cl count arr j).1 k = getI arr k := by
  induction count with
  | zero => intro arr j k _; rfl
  | succ count ih =>
    intro arr j k hk
    simp only [bubbleInner]
    split
    · dsimp only
      rw [ih _ _ _ (by omega)]
      exact getI_swapL_other arr j (j + 1) k (by omega) (by omega)
    · dsimp only
      exact ih arr (j + 1) k (by omega)

theorem bubbleInner_max (cl : CodeLines) (count : Nat) :
    ∀ arr j, j + count < arr.length →
      (∀ k, k ≤ j → getI arr k ≤ getI arr j) →
      ∀ k, k ≤ j + count →
        getI (bubbleInner cl count arr j).1 k ≤
          getI (bubbleInner cl count arr j).1 (j + count) := by
  induction count with
  | zero =>
    intro arr j _ hmax k hk
    exact hmax k (by omega)
  | succ count ih =>
    intro arr j hb hmax k hk
    simp only [bubbleInner]
    split
    · dsimp only
      rename_i hgt
      have hlen : (swapL arr j (j + 1)).length = arr.length := length_swapL arr j (j + 1)
      have hmax2 : ∀ k, k ≤ j + 1 →
          getI (swapL arr j (j + 1)) k ≤ getI (swapL arr j (j + 1)) (j + 1) := by
        intro m hm
        rw [getI_swapL_right arr j (j + 1) (by omega)]
        rcases Nat.lt_or_ge m j with hmj | hmj
        · rw [getI_swapL_other arr j (j + 1) m (by omega) (by omega)]
          exact hmax m (by omega)
        · rcases Nat.eq_or_lt_of_le hmj with rfl | hmj'
          · rw [getI_swapL_left arr j (j + 1) (by omega) (by omega)]
            exact le_of_lt hgt
          · have : m = j + 1 := by omega
            subst this
            rw [getI_swapL_right arr j (j + 1) (by omega)]
        
      have := ih (swapL arr j (j + 1)) (j + 1) (by omega) hmax2 k (by omega)
      have harith : j + 1 + count = j + (count + 1) := by omega
      rwa [harith] at this
    · dsimp only
      rename_i hgt
      have hle : getI arr j ≤ getI arr (j + 1) := by omega
      have hmax2 : ∀ k, k ≤ j + 1 → getI arr k ≤ getI arr (j + 1) := by
        intro m hm
        rcases Nat.lt_or_ge m (j + 1) with hmj | hmj
        · exact le_trans (hmax m (by omega)) hle
        · have : m = j + 1 := by omega
          subst this
          exact le_refl _
      have := ih arr (j + 1) (by omega) hmax2 k (by omega)
      have harith : j + 1 + count = j + (count + 1) := by omega
      rwa [harith] at this

/-- A value in the prefix `[0, j + count]` of the inner-loop result is one of
the original prefix values (the inner loop permutes that prefix in place). -/
theorem bubbleInner_prefix_mem (cl : CodeLines) (count : Nat) (arr : List Int) (j : Nat)
    (hb : j + count < arr.length) (p : Nat) (hp : p ≤ j + count) :
    ∃ k, k ≤ j + count ∧ getI arr k = getI (bubbleInner cl count arr j).1 p := by
  have hlen : (bubbleInner cl count arr j).1.length = arr.length :=
    bubbleInner_length cl count arr j
  have hperm : (bubbleInner cl count arr j).1.Perm arr :=
    bubbleInner_perm cl count arr j hb
  have hsliceperm : (sliceI (bubbleInner cl count arr j).1 0 (j + count + 1)).Perm
      (sliceI arr 0 (j + count + 1)) := by
    apply perm_slice_of_agree_outside _ _ _ _ (by omega) (by omega) hlen hperm
    intro k hk
    rcases hk with hk | hk
    · omega
    · exact bubbleInner_untouched cl count arr j k (by omega)
  have hmem : getI (bubbleInner cl count arr j).1 p ∈
      sliceI (bubbleInner cl count arr j).1 0 (j + count + 1) := by
    rw [mem_slice_iff _ _ _ _ (by omega) (by omega)]
    exact ⟨p, by omega, by omega, rfl⟩
  have hmem2 := hsliceperm.mem_iff.mp hmem
  rw [mem_slice_iff _ _ _ _ (by omega) (by omega)] at hmem2
  obtain ⟨k, _, hkb, hkeq⟩ := hmem2
  exact ⟨k, by omega, hkeq⟩

theorem bubbleOuter_spec (cl : CodeLines) (n : Nat) (count : Nat) :
    ∀ arr i, arr.length = n → i + count = n - 1 →
      sortedRange arr (n - i) n →
      (∀ p q, p < n - i → n - i ≤ q → q < n → getI arr p ≤ getI arr q) →
      (bubbleOuter cl n count arr i).1.Perm arr ∧
      sortedRange (bubbleOuter cl n count arr i).1 0 n ∧
      (∀ f ∈ (bubbleOuter cl n count arr i).2, f.array.Perm arr) := by
  induction count with
  | zero =>
    intro arr i hn hlink hsorted hsplit
    refine ⟨List.Perm.refl arr, ?_, by simp [bubbleOuter]⟩
    rcases Nat.eq_zero_or_pos n with rfl | hn1
    · exact sortedRange_of_le arr 0 0 (by omega)
    · have hi : n - i ≤ 1 := by omega
      intro p q hp0 hpq hq
      rcases Nat.eq_zero_or_pos (n - i) with hzero | hpos
      · exact hsorted p q (by omega) hpq hq
      · have h1 : n - i = 1 := by omega
        rcases Nat.eq_zero_or_pos p with rfl | hp1
        · exact hsplit 0 q (by omega) (by omega) hq
        · exact hsorted p q (by omega) hpq hq
  | succ count ih =>
    intro arr i hn hlink hsorted hsplit
    have hn2 : n = i + count + 2 := by omega
    have hb : 0 + (n - i - 1) < arr.length := by omega
    have hlen1 : (bubbleInner cl (n - i - 1) arr 0).1.length = arr.length :=
      bubbleInner_length cl (n - i - 1) arr 0
    have hpermInner : (bubbleInner cl (n - i - 1) arr 0).1.Perm arr :=
      bubbleInner_perm cl (n - i - 1) arr 0 hb
    have huntouched : ∀ k, n - i - 1 < k →
        getI (bubbleInner cl (n - i - 1) arr 0).1 k = getI arr k := by
      intro k hk
      exact bubbleInner_untouched cl (n - i - 1) arr 0 k (by omega)
    have hmax : ∀ k, k ≤ n - i - 1 →
        getI (bubbleInner cl (n - i - 1) arr 0).1 k ≤
          getI (bubbleInner cl (n - i - 1) arr 0).1 (n - i - 1) := by
      have h0 : ∀ k, k ≤ 0 → getI arr k ≤ getI arr 0 := by
        intro k hk
        have : k = 0 := by omega
        subst this
        exact le_refl _
      intro k hk
      have := bubbleInner_max cl (n - i - 1) arr 0 hb h0 k (by omega)
      simpa using this
    have hprefmem : ∀ p, p ≤ n - i - 1 →
        ∃ k, k ≤ n - i - 1 ∧
          getI arr k = getI (bubbleInner cl (n - i - 1) arr 0).1 p := by
      intro p hp
      have := bubbleInner_prefix_mem cl (n - i - 1) arr 0 hb p (by omega)
      simpa using this
    have hbridge : ∀ q, n - i - 1 < q → q < n →
        getI (bubbleInner cl (n - i - 1) arr 0).1 (n - i - 1) ≤
          getI (bubbleInner cl (n - i - 1) arr 0).1 q := by
      intro q hbq hq
      obtain ⟨k, hkb, hkeq⟩ := hprefmem (n - i - 1) (le_refl _)
      rw [huntouched q hbq, ← hkeq]
      exact hsplit k q (by omega) (by omega) hq
    have hsorted2 : sortedRange (bubbleInner cl (n - i - 1) arr 0).1 (n - (i + 1)) n := by
      intro p q hbp hpq hq
      have hbp' : n - i - 1 ≤ p := by omega
      rcases Nat.eq_or_lt_of_le hbp' with heq | hlt
      · subst heq
        exact hbridge q hpq hq
      · rw [huntouched p hlt, huntouched q (by omega)]
        exact hsorted p q (by omega) hpq hq
    have hsplit2 : ∀ p q, p < n - (i + 1) → n - (i + 1) ≤ q → q < n →
        getI (bubbleInner cl (n - i - 1) arr 0).1 p ≤
          getI (bubbleInner cl (n - i - 1) arr 0).1 q := by
      intro p q hp hq hqn
      have hp' : p < n - i - 1 := by omega
      have hq' : n - i - 1 ≤ q := by omega
      rcases Nat.eq_or_lt_of_le hq' with heq | hlt
      · rw [← heq]
        exact hmax p (by omega)
      · exact le_trans (hmax p (by omega)) (hbridge q hlt hqn)
    have hres := ih (bubbleInner cl (n - i - 1) arr 0).1 (i + 1)
      (by rw [hlen1, hn]) (by omega) hsorted2 hsplit2
    obtain ⟨hperm2, hsorted3, hframes2⟩ := hres
    simp only [bubbleOuter]
    refine ⟨hperm2.trans hpermInner, hsorted3, ?_⟩
    intro f hf
    rw [List.mem_append] at hf
    rcases hf with hf | hf
    · exact bubbleInner_frames_perm cl (n - i - 1) arr 0 hb f hf
    · rw [List.mem_cons] at hf
      rcases hf with rfl | hf
      · exact hpermInner
      · exact (hframes2 f hf).trans hpermInner

/-- Bubble sort producer: the final frame marks `range n` settled, its values
are the input sorted ascending, and every emitted frame's values are a
permutation of the input. -/
theorem generateBubbleSortFrames_correct (arr : List Int) (cl : CodeLines) :
    ((generateBubbleSortFrames arr cl).getLastD default).sorted
        = some (List.range arr.length) ∧
    ((generateBubbleSortFrames arr cl).getLastD default).array.Sorted (· ≤ ·) ∧
    ((generateBubbleSortFrames arr cl).getLastD default).array.Perm arr ∧
    (∀ f ∈ generateBubbleSortFrames arr cl, f.array.Perm arr) := by
  obtain ⟨hperm, hsorted, hframes⟩ :=
    bubbleOuter_spec cl arr.length (arr.length - 1) arr 0 rfl (by omega)
      (fun p q hp hpq hq => by omega) (fun p q hp hq hqn => by omega)
  have hlenOut : (bubbleOuter cl arr.length (arr.length - 1) arr 0).1.length
      = arr.length := hperm.length_eq
  have hsortedL : (bubbleOuter cl arr.length (arr.length - 1) arr 0).1.Sorted (· ≤ ·) := by
    apply sorted_of_sortedRange
    rw [hlenOut]
    exact hsorted
  simp only [generateBubbleSortFrames]
  simp only [List.getLastD_cons, List.getLastD_concat]
  refine ⟨trivial, hsortedL, hperm, ?_⟩
  intro f hf
  simp only [List.mem_cons, List.mem_append, List.mem_singleton,
    List.not_mem_nil, or_false] at hf
  rcases hf with (rfl | hf) | rfl
  · exact List.Perm.refl arr
  · exact hframes f hf
  · exact hperm

/-! ## Selection sort: correctness of the embedded producer -/

theorem selInner_spec (cl : CodeLines) (arr : List Int) (i : Nat) (count : Nat) :
    ∀ minIdx j, i ≤ minIdx → minIdx < j →
      (∀ k, i ≤ k → k < j → getI arr minIdx ≤ getI arr k) →
      i ≤ (selInner cl arr count minIdx j).1 ∧
      (selInner cl arr count minIdx j).1 < j + count ∧
      (∀ k, i ≤ k → k < j + count →
        getI arr (selInner cl arr count minIdx j).1 ≤ getI arr k) := by
  induction count with
  | zero =>
    intro minIdx j hi hj hmin
    simp only [selInner]
    exact ⟨hi, by omega, fun k hk1 hk2 => hmin k hk1 (by omega)⟩
  | succ count ih =>
    intro minIdx j hi hj hmin
    simp only [selInner]
    split
    · dsimp only
      rename_i hlt
      have hmin2 : ∀ k, i ≤ k → k < j + 1 → getI arr j ≤ getI arr k := by
        intro k hk1 hk2
        rcases Nat.lt_or_ge k j with hkj | hkj
        · exact le_trans (le_of_lt hlt) (hmin k hk1 hkj)
        · have : k = j := by omega
          subst this
          exact le_refl _
      have := ih j (j + 1) (by omega) (by omega) hmin2
      exact ⟨this.1, by omega, fun k hk1 hk2 => this.2.2 k hk1 (by omega)⟩
    · dsimp only
      rename_i hlt
      have hmin2 : ∀ k, i ≤ k → k < j + 1 → getI arr minIdx ≤ getI arr k := by
        intro k hk1 hk2
        rcases Nat.lt_or_ge k j with hkj | hkj
        · exact hmin k hk1 hkj
        · have : k = j := by omega
          subst this
          omega
      have := ih minIdx (j + 1) hi (by omega) hmin2
      exact ⟨this.1, by omega, fun k hk1 hk2 => this.2.2 k hk1 (by omega)⟩

theorem selInner_frames (cl : CodeLines) (arr : List Int) (count : Nat) :
    ∀ minIdx j, ∀ f ∈ (selInner cl arr count minIdx j).2, f.array = arr := by
  induction count with
  | zero => intro minIdx j f hf; exact absurd hf (by simp [selInner])
  | succ count ih =>
    intro minIdx j f hf
    simp only [selInner] at hf
    split at hf
    · dsimp only at hf
      simp only [List.mem_cons] at hf
      rcases hf with rfl | rfl | hf
      · rfl
      · rfl
      · exact ih j (j + 1) f hf
    · dsimp only at hf
      simp only [List.mem_cons] at hf
      rcases hf with rfl | hf
      · rfl
      · exact ih minIdx (j + 1) f hf

theorem selOuter_spec (cl : CodeLines) (n : Nat) (count : Nat) :
    ∀ arr i, arr.length = n → i + count = n - 1 →
      sortedRange arr 0 i →
      (∀ p q, p < i → i ≤ q → q < n → getI arr p ≤ getI arr q) →
      (selOuter cl n count arr i).1.Perm arr ∧
      sortedRange (selOuter cl n count arr i).1 0 n ∧
      (∀ f ∈ (selOuter cl n count arr i).2, f.array.Perm arr) := by
  induction count with
  | zero =>
    intro arr i hn hlink hsorted hsplit
    simp only [selOuter]
    refine ⟨List.Perm.refl arr, ?_, by simp⟩
    rcases Nat.eq_zero_or_pos n with rfl | hn1
    · exact sortedRange_of_le arr 0 0 (by omega)
    · intro p q hp0 hpq hq
      rcases Nat.lt_or_ge q i with hqi | hqi
      · exact hsorted p q hp0 hpq hqi
      · exact hsplit p q (by omega) hqi hq
  | succ count ih =>
    intro arr i hn hlink hsorted hsplit
    have hn2 : n = i + count + 2 := by omega
    have hminspec := selInner_spec cl arr i (n - (i + 1)) i (i + 1) (le_refl i) (by omega)
      (fun k hk1 hk2 => by
        have : k = i := by omega
        subst this
        exact le_refl _)
    set m := (selInner cl arr (n - (i + 1)) i (i + 1)).1 with hmdef
    obtain ⟨him, hmn', hmin⟩ := hminspec
    have hmn : m < n := by omega
    have hminAll : ∀ k, i ≤ k → k < n → getI arr m ≤ getI arr k := by
      intro k hk1 hk2
      exact hmin k hk1 (by omega)
    have key : ∀ arr2 : List Int,
        arr2.length = n → arr2.Perm arr →
        getI arr2 i = getI arr m → getI arr2 m = getI arr i →
        (∀ k, k ≠ i → k ≠ m → getI arr2 k = getI arr k) →
        sortedRange arr2 0 (i + 1) ∧
        (∀ p q, p < i + 1 → i + 1 ≤ q → q < n → getI arr2 p ≤ getI arr2 q) := by
      intro arr2 hlen2 hperm2 hgi hgm hother
      constructor
      · intro p q hp0 hpq hq
        rcases Nat.lt_or_ge q i with hqi | hqi
        · rw [hother p (by omega) (by omega), hother q (by omega) (by omega)]
          exact hsorted p q hp0 hpq hqi
        · have hq_eq : q = i := by omega
          subst hq_eq
          rw [hgi, hother p (by omega) (by omega)]
          exact hsplit p m (by omega) him hmn
      · intro p q hp hq hqn
        rcases Nat.lt_or_ge p i with hpi | hpi
        · rw [hother p (by omega) (by omega)]
          rcases eq_or_ne q m with rfl | hqm
          · rw [hgm]
            exact hsplit p i hpi (le_refl i) (by omega)
          · rw [hother q (by omega) hqm]
            exact hsplit p q hpi (by omega) hqn
        · have hp_eq : p = i := by omega
          rw [hp_eq, hgi]
          rcases eq_or_ne q m with rfl | hqm
          · rw [hgm]
            exact hminAll i (le_refl i) (by omega)
          · rw [hother q (by omega) hqm]
            exact hminAll q (by omega) hqn
    rcases eq_or_ne m i with hmi | hmi
    · have hkey := key arr hn (List.Perm.refl arr)
        (by rw [hmi]) (by rw [hmi]) (fun k _ _ => rfl)
      obtain ⟨hperm2, hsorted3, hframes2⟩ := ih arr (i + 1) hn (by omega) hkey.1 hkey.2
      simp only [selOuter]
      rw [← hmdef, if_neg (fun hcon => hcon hmi)]
      refine ⟨hperm2, hsorted3, ?_⟩
      intro f hf
      simp only [List.mem_cons, List.mem_append, List.not_mem_nil, or_false,
        List.nil_append] at hf
      rcases hf with (rfl | hf) | (rfl | hf)
      · exact List.Perm.refl arr
      · rw [selInner_frames cl arr (n - (i + 1)) i (i + 1) f hf]
      · exact List.Perm.refl arr
      · exact hframes2 f hf
    · have hilen : i < arr.length := by omega
      have hmlen : m < arr.length := by omega
      have hgi : getI (swapL arr i m) i = getI arr m :=
        getI_swapL_left arr i m hilen (Ne.symm hmi)
      have hgm : getI (swapL arr i m) m = getI arr i :=
        getI_swapL_right arr i m hmlen
      have hother : ∀ k, k ≠ i → k ≠ m → getI (swapL arr i m) k = getI arr k :=
        fun k hki hkm => getI_swapL_other arr i m k hki hkm
      have hpermS : (swapL arr i m).Perm arr := swapL_perm arr i m hilen hmlen
      have hlen2 : (swapL arr i m).length = n := by rw [length_swapL, hn]
      have hkey := key (swapL arr i m) hlen2 hpermS hgi hgm hother
      obtain ⟨hperm2, hsorted3, hframes2⟩ :=
        ih (swapL arr i m) (i + 1) hlen2 (by omega) hkey.1 hkey.2
      simp only [selOuter]
      rw [← hmdef, if_pos hmi]
      refine ⟨hperm2.trans hpermS, hsorted3, ?_⟩
      intro f hf
      simp only [List.mem_cons, List.mem_append, List.not_mem_nil, or_false] at hf
      rcases hf with ((rfl | hf) | rfl) | (rfl | hf)
      · exact List.Perm.refl arr
      · rw [selInner_frames cl arr (n - (i + 1)) i (i + 1) f hf]
      · exact hpermS
      · exact hpermS
      · exact (hframes2 f hf).trans hpermS

/-- Selection sort producer: final frame settled on `range n`, values sorted
ascending, every frame a permutation of the input. -/
theorem generateSelectionSortFrames_correct (arr : List Int) (cl : CodeLines) :
    ((generateSelectionSortFrames arr cl).getLastD default).sorted
        = some (List.range arr.length) ∧
    ((generateSelectionSortFrames arr cl).getLastD default).array.Sorted (· ≤ ·) ∧
    ((generateSelectionSortFrames arr cl).getLastD default).array.Perm arr ∧
    (∀ f ∈ generateSelectionSortFrames arr cl, f.array.Perm arr) := by
  obtain ⟨hperm, hsorted, hframes⟩ :=
    selOuter_spec cl arr.length (arr.length - 1) arr 0 rfl (by omega)
      (sortedRange_of_le arr 0 0 (by omega)) (fun p q hp hq hqn => by omega)
  have hlenOut : (selOuter cl arr.length (arr.length - 1) arr 0).1.length
      = arr.length := hperm.length_eq
  have hsortedL : (selOuter cl arr.length (arr.length - 1) arr 0).1.Sorted (· ≤ ·) := by
    apply sorted_of_sortedRange
    rw [hlenOut]
    exact hsorted
  simp only [generateSelectionSortFrames]
  simp only [List.getLastD_cons, List.getLastD_concat]
  refine ⟨trivial, hsortedL, hperm, ?_⟩
  intro f hf
  simp only [List.mem_cons, List.mem_append, List.mem_singleton,
    List.not_mem_nil, or_false] at hf
  rcases hf with (rfl | hf) | rfl
  · exact List.Perm.refl arr
  · exact hframes f hf
  · exact hperm

/-! ## Quick sort: correctness of the embedded producer -/

theorem getI_swapL_fst (l : List Int) (a b : Nat) (ha : a < l.length) (hb : b < l.length) :
    getI (swapL l a b) a = getI l b := by
  rcases eq_or_ne a b with rfl | hab
  · rw [getI_swapL_right l a a ha]
  · exact getI_swapL_left l a b ha hab

theorem quickPartitionLoop_spec (cl : CodeLines) (pivot : Int) (low high : Nat)
    (count : Nat) :
    ∀ arr (i : Int) (j : Nat),
      j + count = high → high < arr.length →
      (low : Int) - 1 ≤ i → i < (j : Int) → low ≤ j →
      (∀ k : Nat, low ≤ k → (k : Int) ≤ i → getI arr k < pivot) →
      (∀ k : Nat, i < (k : Int) → k < j → pivot ≤ getI arr k) →
      (quickPartitionLoop cl pivot high count arr i j).1.length = arr.length ∧
      (quickPartitionLoop cl pivot high count arr i j).1.Perm arr ∧
      i ≤ (quickPartitionLoop cl pivot high count arr i j).2.2 ∧
      (quickPartitionLoop cl pivot high count arr i j).2.2 < (high : Int) ∧
      (∀ k : Nat, k < low ∨ high ≤ k →
        getI (quickPartitionLoop cl pivot high count arr i j).1 k = getI arr k) ∧
      (∀ k : Nat, low ≤ k →
        (k : Int) ≤ (quickPartitionLoop cl pivot high count arr i j).2.2 →
        getI (quickPartitionLoop cl pivot high count arr i j).1 k < pivot) ∧
      (∀ k : Nat, (quickPartitionLoop cl pivot high count arr i j).2.2 < (k : Int) →
        k < high →
        pivot ≤ getI (quickPartitionLoop cl pivot high count arr i j).1 k) ∧
      (∀ f ∈ (quickPartitionLoop cl pivot high count arr i j).2.1, f.array.Perm arr) := by
  induction count with
  | zero =>
    intro arr i j h1 h2 h3 h4 h5 h6 h7
    refine ⟨?_, ?_, ?_, ?_, ?_, ?_, ?_, ?_⟩
    · rfl
    · exact List.Perm.refl arr
    · exact le_refl i
    · simp only [quickPartitionLoop]
      omega
    · intro k _
      rfl
    · exact h6
    · intro k hik hkh
      exact h7 k hik (by omega)
    · simp [quickPartitionLoop]
  | succ count ih =>
    intro arr i j h1 h2 h3 h4 h5 h6 h7
    simp only [quickPartitionLoop]
    split
    · dsimp only
      rename_i hlt
      have hi2nn : (0 : Int) ≤ i + 1 := by omega
      have hi2j : i + 1 ≤ (j : Int) := by omega
      have hi2lt : (i + 1).toNat < arr.length := by omega
      have hjlt : j < arr.length := by omega
      have hlen2 : (swapL arr (i + 1).toNat j).length = arr.length :=
        length_swapL arr (i + 1).toNat j
      have hpermS : (swapL arr (i + 1).toNat j).Perm arr :=
        swapL_perm arr (i + 1).toNat j hi2lt hjlt
      have hfst : getI (swapL arr (i + 1).toNat j) (i + 1).toNat = getI arr j :=
        getI_swapL_fst arr (i + 1).toNat j hi2lt hjlt
      have hsnd : getI (swapL arr (i + 1).toNat j) j = getI arr (i + 1).toNat :=
        getI_swapL_right arr (i + 1).toNat j hjlt
      have hoth : ∀ k : Nat, k ≠ (i + 1).toNat → k ≠ j →
          getI (swapL arr (i + 1).toNat j) k = getI arr k :=
        fun k hk1 hk2 => getI_swapL_other arr (i + 1).toNat j k hk1 hk2
      have h6' : ∀ k : Nat, low ≤ k → (k : Int) ≤ i + 1 →
          getI (swapL arr (i + 1).toNat j) k < pivot := by
        intro k hk1 hk2
        rcases eq_or_ne k (i + 1).toNat with rfl | hne
        · rw [hfst]
          exact hlt
        · have hki : (k : Int) ≤ i := by omega
          rw [hoth k hne (by omega)]
          exact h6 k hk1 hki
      have h7' : ∀ k : Nat, i + 1 < (k : Int) → k < j + 1 →
          pivot ≤ getI (swapL arr (i + 1).toNat j) k := by
        intro k hk1 hk2
        have hkj : k ≤ j := by omega
        rcases eq_or_ne k j with rfl | hkje
        · rw [hsnd]
          exact h7 (i + 1).toNat (by omega) (by omega)
        · have hk3 : k < j := by omega
          rw [hoth k (by omega) hkje]
          exact h7 k (by omega) hk3
      obtain ⟨l1, l2, l3, l4, l5, l6, l7, l8⟩ :=
        ih (swapL arr (i + 1).toNat j) (i + 1) (j + 1) (by omega) (by omega)
          (by omega) (by omega) (by omega) h6' h7'
      refine ⟨by rw [l1, hlen2], l2.trans hpermS, by omega, l4, ?_, l6, l7, ?_⟩
      · intro k hk
        rw [l5 k hk]
        apply hoth k
        · omega
        · omega
      · intro f hf
        simp only [List.mem_cons] at hf
        rcases hf with rfl | rfl | hf
        · exact List.Perm.refl arr
        · exact hpermS
        · exact (l8 f hf).trans hpermS
    · dsimp only
      rename_i hlt
      have h7' : ∀ k : Nat, i < (k : Int) → k < j + 1 → pivot ≤ getI arr k := by
        intro k hk1 hk2
        rcases eq_or_ne k j with rfl | hkje
        · omega
        · exact h7 k hk1 (by omega)
      obtain ⟨l1, l2, l3, l4, l5, l6, l7, l8⟩ :=
        ih arr i (j + 1) (by omega) h2 h3 (by omega) (by omega) h6 h7'
      refine ⟨l1, l2, l3, l4, l5, l6, l7, ?_⟩
      intro f hf
      simp only [List.mem_cons] at hf
      rcases hf with rfl | hf
      · exact List.Perm.refl arr
      · exact l8 f hf

theorem quickPartition_spec (cl : CodeLines) (arr : List Int) (low high : Nat)
    (hlh : low < high) (hhigh : high < arr.length) :
    (quickPartition cl arr low high).1.length = arr.length ∧
    (quickPartition cl arr low high).1.Perm arr ∧
    low ≤ (quickPartition cl arr low high).2.2 ∧
    (quickPartition cl arr low high).2.2 ≤ high ∧
    (∀ k, k < low ∨ high < k →
      getI (quickPartition cl arr low high).1 k = getI arr k) ∧
    (∀ k, low ≤ k → k < (quickPartition cl arr low high).2.2 →
      getI (quickPartition cl arr low high).1 k < getI arr high) ∧
    getI (quickPartition cl arr low high).1 (quickPartition cl arr low high).2.2
      = getI arr high ∧
    (∀ k, (quickPartition cl arr low high).2.2 < k → k ≤ high →
      getI arr high ≤ getI (quickPartition cl arr low high).1 k) ∧
    (∀ f ∈ (quickPartition cl arr low high).2.1, f.array.Perm arr) := by
  obtain ⟨l1, l2, l3, l4, l5, l6, l7, l8⟩ :=
    quickPartitionLoop_spec cl (getI arr high) low high (high - low) arr
      ((low : Int) - 1) low (by omega) hhigh (by omega) (by omega) (le_refl low)
      (fun k hk1 hk2 => by omega) (fun k hk1 hk2 => by omega)
  simp only [quickPartition]
  set scan := quickPartitionLoop cl (getI arr high) high (high - low) arr
    ((low : Int) - 1) low with hscan
  set piN := (scan.2.2 + 1).toNat with hpiN
  have hpiInt : (piN : Int) = scan.2.2 + 1 := by omega
  have hpiLow : low ≤ piN := by omega
  have hpiHigh : piN ≤ high := by omega
  have hpiLen : piN < scan.1.length := by rw [l1]; omega
  have hhighLen : high < scan.1.length := by rw [l1]; omega
  have hfst : getI (swapL scan.1 piN high) piN = getI scan.1 high :=
    getI_swapL_fst scan.1 piN high hpiLen hhighLen
  have hsnd : getI (swapL scan.1 piN high) high = getI scan.1 piN :=
    getI_swapL_right scan.1 piN high hhighLen
  have hoth : ∀ k, k ≠ piN → k ≠ high →
      getI (swapL scan.1 piN high) k = getI scan.1 k :=
    fun k h1 h2 => getI_swapL_other scan.1 piN high k h1 h2
  have hpermS : (swapL scan.1 piN high).Perm scan.1 :=
    swapL_perm scan.1 piN high hpiLen hhighLen
  have hhightop : getI scan.1 high = getI arr high := l5 high (Or.inr (le_refl high))
  refine ⟨?_, ?_, hpiLow, hpiHigh, ?_, ?_, ?_, ?_, ?_⟩
  · rw [length_swapL, l1]
  · exact hpermS.trans l2
  · intro k hk
    have hkp : k ≠ piN := by omega
    have hkh : k ≠ high := by omega
    rw [hoth k hkp hkh]
    apply l5
    omega
  · intro k hk1 hk2
    have hkp : k ≠ piN := by omega
    have hkh : k ≠ high := by omega
    rw [hoth k hkp hkh]
    exact l6 k hk1 (by omega)
  · rw [hfst, hhightop]
  · intro k hk1 hk2
    rcases eq_or_ne k high with heq | hkh
    · rw [heq, hsnd]
      have hpih : piN < high := by omega
      exact l7 piN (by omega) hpih
    · rw [hoth k (by omega) hkh]
      exact l7 k (by omega) (by omega)
  · intro f hf
    simp only [List.mem_cons, List.mem_append, List.mem_singleton,
      List.not_mem_nil, or_false] at hf
    rcases hf with (rfl | hf) | rfl
    · exact List.Perm.refl arr
    · exact l8 f hf
    · exact hpermS.trans l2

/-- A value inside `[a, b)` of a permuted-in-place list is one of the original
values of `[a, b)`. -/
theorem exists_getI_of_perm_agree (l2 l : List Int) (a b : Nat)
    (hab : a ≤ b) (hb : b ≤ l.length) (hlen : l2.length = l.length)
    (hperm : l2.Perm l)
    (hout : ∀ k, k < a ∨ b ≤ k → getI l2 k = getI l k)
    (p : Nat) (hp1 : a ≤ p) (hp2 : p < b) :
    ∃ k, a ≤ k ∧ k < b ∧ getI l k = getI l2 p := by
  have hsp := perm_slice_of_agree_outside l l2 a b hab hb hlen hperm hout
  have hmem : getI l2 p ∈ sliceI l2 a b :=
    (mem_slice_iff l2 a b _ hab (by omega)).mpr ⟨p, hp1, hp2, rfl⟩
  have hmem2 := hsp.mem_iff.mp hmem
  rw [mem_slice_iff l a b _ hab hb] at hmem2
  exact hmem2

theorem quickSortRec_noop (cl : CodeLines) (fuel : Nat) (arr : List Int)
    (low high : Nat) (h : ¬ low < high) :
    quickSortRec cl fuel arr low high = (arr, []) := by
  cases fuel with
  | zero => rfl
  | succ fuel =>
    simp only [quickSortRec]
    rw [if_neg h]

theorem quickSortRec_spec (cl : CodeLines) (fuel : Nat) :
    ∀ arr low high, high < arr.length → high ≤ low + fuel →
      (quickSortRec cl fuel arr low high).1.length = arr.length ∧
      (quickSortRec cl fuel arr low high).1.Perm arr ∧
      (∀ k, k < low ∨ high < k →
        getI (quickSortRec cl fuel arr low high).1 k = getI arr k) ∧
      sortedRange (quickSortRec cl fuel arr low high).1 low (high + 1) ∧
      (∀ f ∈ (quickSortRec cl fuel arr low high).2, f.array.Perm arr) := by
  induction fuel with
  | zero =>
    intro arr low high hhigh hfuel
    refine ⟨rfl, List.Perm.refl arr, fun k _ => rfl, ?_, by simp [quickSortRec]⟩
    exact sortedRange_of_le arr low (high + 1) (by omega)
  | succ fuel ih =>
    intro arr low high hhigh hfuel
    by_cases hlh : low < high
    · -- partition facts
      obtain ⟨p1, p2, p3, p4, p5, p6, p7, p8, p9⟩ :=
        quickPartition_spec cl arr low high hlh hhigh
      -- abbreviations
      set pav := quickPartition cl arr low high with hpav
      set pi := pav.2.2 with hpi
      -- first recursive call
      have hc1hyp1 : pi - 1 < pav.1.length := by rw [p1]; omega
      have hc1hyp2 : pi - 1 ≤ low + fuel := by omega
      obtain ⟨c11, c12, c13, c14, c15⟩ := ih pav.1 low (pi - 1) hc1hyp1 hc1hyp2
      set A := (quickSortRec cl fuel pav.1 low (pi - 1)).1 with hA
      -- untouched positions of the first call, with the pi = 0 edge case
      have huntA : ∀ k, k < low ∨ pi ≤ k → getI A k = getI pav.1 k := by
        intro k hk
        rcases Nat.eq_zero_or_pos pi with hpi0 | hpip
        · have hlow0 : low = 0 := by omega
          rw [hA, quickSortRec_noop cl fuel pav.1 low (pi - 1) (by omega)]
        · exact c13 k (by omega)
      -- second recursive call
      have hc2hyp1 : high < A.length := by rw [hA, c11, p1]; exact hhigh
      have hc2hyp2 : high ≤ (pi + 1) + fuel := by omega
      obtain ⟨c21, c22, c23, c24, c25⟩ := ih A (pi + 1) high hc2hyp1 hc2hyp2
      set B := (quickSortRec cl fuel A (pi + 1) high).1 with hB
      have hlenA : A.length = arr.length := by rw [hA, c11, p1]
      have hlenB : B.length = arr.length := by rw [hB, c21, hlenA]
      -- value facts on A
      have hApi : getI A pi = getI arr high := by
        rw [huntA pi (Or.inr (le_refl pi))]
        exact p7
      have hAright : ∀ k, pi < k → k ≤ high → getI arr high ≤ getI A k := by
        intro k hk1 hk2
        rw [huntA k (Or.inr (by omega))]
        exact p8 k hk1 hk2
      have hAleft : ∀ k, low ≤ k → k < pi → getI A k < getI arr high := by
        intro k hk1 hk2
        obtain ⟨k2, hk21, hk22, hk23⟩ :=
          exists_getI_of_perm_agree A pav.1 low pi (by omega) (by rw [p1]; omega)
            (by rw [hlenA, p1]) c12
            (fun k hk => huntA k hk) k hk1 hk2
        rw [← hk23]
        exact p6 k2 hk21 hk22
      -- value facts on B
      have huntB : ∀ k, k < pi + 1 ∨ high < k → getI B k = getI A k := c23
      have hBpi : getI B pi = getI arr high := by
        rw [huntB pi (Or.inl (by omega))]
        exact hApi
      have hBleft : ∀ k, low ≤ k → k < pi → getI B k < getI arr high := by
        intro k hk1 hk2
        rw [huntB k (Or.inl (by omega))]
        exact hAleft k hk1 hk2
      have hBright : ∀ k, pi < k → k ≤ high → getI arr high ≤ getI B k := by
        intro k hk1 hk2
        obtain ⟨k2, hk21, hk22, hk23⟩ :=
          exists_getI_of_perm_agree B A (pi + 1) (high + 1) (by omega)
            (by rw [hlenA]; omega) (by rw [hlenB, hlenA]) c22
            (fun k hk => huntB k (by omega)) k (by omega) (by omega)
        rw [← hk23]
        exact hAright k2 (by omega) (by omega)
      have hBsortedLeft : ∀ p q, low ≤ p → p < q → q < pi → getI B p ≤ getI B q := by
        intro p q hp hpq hq
        rw [huntB p (Or.inl (by omega)), huntB q (Or.inl (by omega))]
        rcases Nat.eq_zero_or_pos pi with hpi0 | hpip
        · omega
        · exact c14 p q hp hpq (by omega)
      -- now the goal
      simp only [quickSortRec]
      rw [if_pos hlh]
      rw [← hpav, ← hpi, ← hA, ← hB]
      refine ⟨?_, ?_, ?_, ?_, ?_⟩
      · rw [hlenB]
      · exact (c22.trans c12).trans p2
      · intro k hk
        rw [huntB k (by omega), huntA k (by omega)]
        exact p5 k (by omega)
      · intro p q hp hpq hq
        rcases Nat.lt_trichotomy q pi with hqpi | hqpi | hqpi
        · exact hBsortedLeft p q hp hpq hqpi
        · subst hqpi
          rw [hBpi]
          exact le_of_lt (hBleft p hp hpq)
        · rcases Nat.lt_trichotomy p pi with hppi | hppi | hppi
          · exact le_trans (le_of_lt (hBleft p hp hppi))
              (hBright q hqpi (by omega))
          · subst hppi
            rw [hBpi]
            exact hBright q hqpi (by omega)
          · exact c24 p q (by omega) hpq hq
      · intro f hf
        simp only [List.mem_append] at hf
        rcases hf with (hf | hf) | hf
        · exact p9 f hf
        · exact (c15 f hf).trans p2
        · exact ((c25 f hf).trans c12).trans p2
    · rw [quickSortRec_noop cl (fuel + 1) arr low high hlh]
      refine ⟨rfl, List.Perm.refl arr, fun k _ => rfl, ?_, by simp⟩
      exact sortedRange_of_le arr low (high + 1) (by omega)

/-- Quick sort producer: final frame settled on `range n`, values sorted
ascending, every frame a permutation of the input. -/
theorem generateQuickSortFrames_correct (arr : List Int) (cl : CodeLines) :
    ((generateQuickSortFrames arr cl).getLastD default).sorted
        = some (List.range arr.length) ∧
    ((generateQuickSortFrames arr cl).getLastD default).array.Sorted (· ≤ ·) ∧
    ((generateQuickSortFrames arr cl).getLastD default).array.Perm arr ∧
    (∀ f ∈ generateQuickSortFrames arr cl, f.array.Perm arr) := by
  rcases eq_or_ne arr [] with rfl | hne
  · refine ⟨rfl, ?_, ?_, ?_⟩
    · exact List.sorted_nil
    · exact List.Perm.refl []
    · intro f hf
      simp only [generateQuickSortFrames, List.length_nil] at hf
      have hloop : quickSortRec cl 0 ([] : List Int) 0 (0 - 1) = ([], []) := rfl
      rw [hloop] at hf
      simp at hf
      rcases hf with rfl | rfl
      · exact List.Perm.refl []
      · exact List.Perm.refl []
  · have hn : 0 < arr.length := List.length_pos.mpr hne
    obtain ⟨q1, q2, q3, q4, q5⟩ :=
      quickSortRec_spec cl arr.length arr 0 (arr.length - 1) (by omega) (by omega)
    have hone : arr.length - 1 + 1 = arr.length := by omega
    rw [hone] at q4
    have hsortedL : (quickSortRec cl arr.length arr 0 (arr.length - 1)).1.Sorted
        (· ≤ ·) := by
      apply sorted_of_sortedRange
      rw [q1]
      exact q4
    simp only [generateQuickSortFrames]
    simp only [List.getLastD_cons, List.getLastD_concat]
    refine ⟨?_, hsortedL, q2, ?_⟩
    · rw [q1]
    · intro f hf
      simp only [List.mem_cons, List.mem_append, List.mem_singleton,
        List.not_mem_nil, or_false] at hf
      rcases hf with (rfl | hf) | rfl
      · exact List.Perm.refl arr
      · exact q5 f hf
      · exact q2

/-! ## More slice lemmas (used for insertion and merge sort) -/

theorem slice_empty (l : List Int) (a : Nat) : sliceI l a a = [] := by
  simp [sliceI]

theorem slice_append_split (l : List Int) (a c b : Nat)
    (hac : a ≤ c) (hcb : c ≤ b) :
    sliceI l a c ++ sliceI l c b = sliceI l a b := by
  simp only [sliceI]
  have hdrop : l.drop c = (l.drop a).drop (c - a) := by
    rw [List.drop_drop]
    congr 1
    omega
  rw [hdrop, ← List.take_add]
  congr 1
  omega

theorem slice_singleton (l : List Int) (a : Nat) (ha : a < l.length) :
    sliceI l a (a + 1) = [getI l a] := by
  apply List.ext_getElem
  · rw [length_slice l a (a + 1) (by omega) (by omega)]
    simp
  · intro n h1 h2
    have hn : n = 0 := by
      rw [length_slice l a (a + 1) (by omega) (by omega)] at h1
      omega
    subst hn
    rw [getElem_slice]
    simp

theorem slice_eq_of_agree (l1 l2 : List Int) (a b : Nat)
    (hab : a ≤ b) (hb1 : b ≤ l1.length) (hb2 : b ≤ l2.length)
    (h : ∀ k, a ≤ k → k < b → getI l1 k = getI l2 k) :
    sliceI l1 a b = sliceI l2 a b := by
  apply List.ext_getElem
  · rw [length_slice l1 a b hab hb1, length_slice l2 a b hab hb2]
  · intro n h1 h2
    rw [getElem_slice, getElem_slice]
    apply h
    · omega
    · rw [length_slice l1 a b hab hb1] at h1
      omega

theorem perm_of_slice_perm_agree (l' l : List Int) (c : Nat)
    (hc : c ≤ l.length) (hlen : l'.length = l.length)
    (hsp : (sliceI l' 0 c).Perm (sliceI l 0 c))
    (hagree : ∀ k, c ≤ k → getI l' k = getI l k) :
    l'.Perm l := by
  have hdecomp : ∀ (m : List Int), c ≤ m.length → m = sliceI m 0 c ++ m.drop c := by
    intro m hm
    have : sliceI m 0 c = m.take c := by
      simp [sliceI]
    rw [this, List.take_append_drop]
  have hdrop : l'.drop c = l.drop c := by
    apply List.ext_getElem
    · simp
      omega
    · intro n h1 h2
      rw [List.getElem_drop, List.getElem_drop]
      have hn : c + n < l.length := by simp at h2; omega
      have hn' : c + n < l'.length := by omega
      have := hagree (c + n) (by omega)
      simpa [getI, List.getD_eq_getElem?_getD, List.getElem?_eq_getElem hn,
        List.getElem?_eq_getElem hn'] using this
  have hmain : (sliceI l' 0 c ++ l'.drop c).Perm (sliceI l 0 c ++ l.drop c) := by
    rw [hdrop]
    exact hsp.append_right _
  rw [← hdecomp l' (by omega), ← hdecomp l hc] at hmain
  exact hmain

/-! ## Insertion sort: correctness of the embedded producer -/

theorem insWhile_spec (cl : CodeLines) (key : Int) (i : Nat) :
    ∀ fuel arr (j : Nat), (j + 1 = fuel ∨ fuel = 0) →
      fuel ≤ i → i < arr.length →
      sortedRange arr 0 fuel →
      (∀ k, fuel < k → k ≤ i → key < getI arr k) →
      sortedRange arr (fuel + 1) (i + 1) →
      (∀ p q, p < fuel → fuel < q → q ≤ i → getI arr p ≤ getI arr q) →
      (insWhile cl key i fuel arr j).1.length = arr.length ∧
      (insWhile cl key i fuel arr j).2.2 ≤ fuel ∧
      (∀ k, k ≤ (insWhile cl key i fuel arr j).2.2 ∨ i < k →
        getI (insWhile cl key i fuel arr j).1 k = getI arr k) ∧
      (∀ p, p < (insWhile cl key i fuel arr j).2.2 →
        getI (insWhile cl key i fuel arr j).1 p ≤ key) ∧
      (∀ k, (insWhile cl key i fuel arr j).2.2 < k → k ≤ i →
        key < getI (insWhile cl key i fuel arr j).1 k) ∧
      sortedRange (insWhile cl key i fuel arr j).1
        ((insWhile cl key i fuel arr j).2.2 + 1) (i + 1) ∧
      (∀ p q, p < (insWhile cl key i fuel arr j).2.2 →
        (insWhile cl key i fuel arr j).2.2 < q → q ≤ i →
        getI (insWhile cl key i fuel arr j).1 p ≤
          getI (insWhile cl key i fuel arr j).1 q) ∧
      sortedRange (insWhile cl key i fuel arr j).1 0
        (insWhile cl key i fuel arr j).2.2 ∧
      (sliceI (insWhile cl key i fuel arr j).1 0
          (insWhile cl key i fuel arr j).2.2 ++
        sliceI (insWhile cl key i fuel arr j).1
          ((insWhile cl key i fuel arr j).2.2 + 1) (i + 1)).Perm
        (sliceI arr 0 fuel ++ sliceI arr (fuel + 1) (i + 1)) := by
  intro fuel
  induction fuel with
  | zero =>
    intro arr j hj hfi hi h1 h2 h3 h4
    refine ⟨rfl, le_refl 0, fun k _ => rfl, ?_, h2, h3, ?_, ?_, ?_⟩
    · intro p hp
      simp only [insWhile] at hp
      omega
    · intro p q hp hq hqi
      simp only [insWhile] at hp
      omega
    · intro p q hp hpq hq
      simp only [insWhile] at hq
      omega
    · exact List.Perm.refl _
  | succ fuel ih =>
    intro arr j hj hfi hi h1 h2 h3 h4
    have hjf : j = fuel := by omega
    subst hjf
    simp only [insWhile]
    split
    · dsimp only
      rename_i hgt
      have hj1len : j + 1 < arr.length := by omega
      have hjlen : j < arr.length := by omega
      have hset_eq : getI (arr.set (j + 1) (getI arr j)) (j + 1) = getI arr j :=
        getI_set_eq arr (j + 1) (getI arr j) hj1len
      have hset_ne : ∀ k, k ≠ j + 1 →
          getI (arr.set (j + 1) (getI arr j)) k = getI arr k :=
        fun k hk => getI_set_ne arr (j + 1) k (getI arr j) (fun h => hk h.symm)
      have hlen2 : (arr.set (j + 1) (getI arr j)).length = arr.length := by simp
      have h1' : sortedRange (arr.set (j + 1) (getI arr j)) 0 j := by
        intro p q hp hpq hq
        rw [hset_ne p (by omega), hset_ne q (by omega)]
        exact h1 p q hp hpq (by omega)
      have h2' : ∀ k, j < k → k ≤ i →
          key < getI (arr.set (j + 1) (getI arr j)) k := by
        intro k hk1 hk2
        rcases eq_or_ne k (j + 1) with rfl | hne
        · rw [hset_eq]
          exact hgt
        · rw [hset_ne k hne]
          exact h2 k (by omega) hk2
      have h3' : sortedRange (arr.set (j + 1) (getI arr j)) (j + 1) (i + 1) := by
        intro p q hp hpq hq
        rcases eq_or_ne p (j + 1) with rfl | hne
        · rw [hset_eq, hset_ne q (by omega)]
          exact h4 j q (by omega) (by omega) (by omega)
        · rw [hset_ne p hne, hset_ne q (by omega)]
          exact h3 p q (by omega) hpq hq
      have h4' : ∀ p q, p < j → j < q → q ≤ i →
          getI (arr.set (j + 1) (getI arr j)) p ≤
            getI (arr.set (j + 1) (getI arr j)) q := by
        intro p q hp hq hqi
        rw [hset_ne p (by omega)]
        rcases eq_or_ne q (j + 1) with rfl | hne
        · rw [hset_eq]
          exact h1 p j (by omega) hp (by omega)
        · rw [hset_ne q hne]
          exact h4 p q (by omega) (by omega) hqi
      obtain ⟨c1, c2, c3, c4, c5, c6, c7, c8, c9⟩ :=
        ih (arr.set (j + 1) (getI arr j)) (j - 1) (by omega) (by omega)
          (by rw [hlen2]; exact hi) h1' h2' h3' h4'
      refine ⟨by rw [c1, hlen2], by omega, ?_, c4, c5, c6, c7, c8, ?_⟩
      · intro k hk
        rw [c3 k hk]
        apply hset_ne k
        omega
      · refine c9.trans ?_
        have e1 : sliceI (arr.set (j + 1) (getI arr j)) 0 j = sliceI arr 0 j := by
          apply slice_eq_of_agree _ _ _ _ (by omega) (by omega) (by omega)
          intro k hk1 hk2
          exact hset_ne k (by omega)
        have e2 : sliceI (arr.set (j + 1) (getI arr j)) (j + 2) (i + 1)
            = sliceI arr (j + 2) (i + 1) := by
          apply slice_eq_of_agree _ _ _ _ (by omega) (by omega) (by omega)
          intro k hk1 hk2
          exact hset_ne k (by omega)
        have e3 : sliceI (arr.set (j + 1) (getI arr j)) (j + 1) (i + 1)
            = [getI arr j] ++ sliceI arr (j + 2) (i + 1) := by
          rw [← slice_append_split (arr.set (j + 1) (getI arr j)) (j + 1) (j + 2)
            (i + 1) (by omega) (by omega)]
          rw [slice_singleton _ _ (by omega), hset_eq, e2]
        have e4 : sliceI arr 0 (j + 1) = sliceI arr 0 j ++ [getI arr j] := by
          rw [← slice_append_split arr 0 j (j + 1) (by omega) (by omega)]
          rw [slice_singleton _ _ hjlen]
        rw [e1, e3, e4, List.append_assoc]
    · dsimp only
      rename_i hgt
      have hle : getI arr j ≤ key := by omega
      refine ⟨rfl, le_refl _, fun k _ => rfl, ?_, h2, h3, h4, h1, List.Perm.refl _⟩
      intro p hp
      rcases eq_or_ne p j with rfl | hne
      · exact hle
      · exact le_trans (h1 p j (by omega) (by omega) (by omega)) hle

theorem insOuter_spec (cl : CodeLines) (n : Nat) (count : Nat) :
    ∀ arr i, arr.length = n → i + count = n → 1 ≤ i →
      sortedRange arr 0 i →
      (insOuter cl n count arr i).1.Perm arr ∧
      sortedRange (insOuter cl n count arr i).1 0 n := by
  induction count with
  | zero =>
    intro arr i hn hlink hi hsorted
    simp only [insOuter]
    have hieq : i = n := by omega
    exact ⟨List.Perm.refl arr, hieq ▸ hsorted⟩
  | succ count ih =>
    intro arr i hn hlink hi hsorted
    have hin : i < n := by omega
    have hilen : i < arr.length := by omega
    obtain ⟨w1, w2, w3, w4, w5, w6, w7, w8, w9⟩ :=
      insWhile_spec cl (getI arr i) i i arr (i - 1) (by omega) (le_refl i) hilen
        hsorted
        (fun k hk1 hk2 => by omega)
        (sortedRange_of_le arr (i + 1) (i + 1) (by omega))
        (fun p q hp hq hqi => by omega)
    set res := insWhile cl (getI arr i) i i arr (i - 1) with hres
    set pos := res.2.2 with hpos
    have hposi : pos ≤ i := w2
    have hposlen : pos < res.1.length := by rw [w1]; omega
    have hFpos : getI (res.1.set pos (getI arr i)) pos = getI arr i :=
      getI_set_eq res.1 pos (getI arr i) hposlen
    have hFne : ∀ k, k ≠ pos →
        getI (res.1.set pos (getI arr i)) k = getI res.1 k :=
      fun k hk => getI_set_ne res.1 pos k (getI arr i) (fun h => hk h.symm)
    have hFlen : (res.1.set pos (getI arr i)).length = n := by
      rw [List.length_set, w1, hn]
    have hFsorted : sortedRange (res.1.set pos (getI arr i)) 0 (i + 1) := by
      intro p q hp hpq hq
      rcases Nat.lt_trichotomy q pos with hq1 | hq1 | hq1
      · rw [hFne p (by omega), hFne q (by omega)]
        exact w8 p q hp hpq hq1
      · rw [hq1, hFpos, hFne p (by omega)]
        exact w4 p (by omega)
      · rw [hFne q (by omega)]
        rcases Nat.lt_trichotomy p pos with hp1 | hp1 | hp1
        · rw [hFne p (by omega)]
          exact le_trans (w4 p hp1) (le_of_lt (w5 q hq1 (by omega)))
        · rw [hp1, hFpos]
          exact le_of_lt (w5 q hq1 (by omega))
        · rw [hFne p (by omega)]
          exact w6 p q (by omega) hpq hq
    have hFagree : ∀ k, i + 1 ≤ k →
        getI (res.1.set pos (getI arr i)) k = getI arr k := by
      intro k hk
      rw [hFne k (by omega)]
      exact w3 k (Or.inr (by omega))
    have hFperm : (res.1.set pos (getI arr i)).Perm arr := by
      apply perm_of_slice_perm_agree _ _ (i + 1) (by omega) (by rw [hFlen, hn]) ?_ hFagree
      have eA : sliceI (res.1.set pos (getI arr i)) 0 pos = sliceI res.1 0 pos := by
        apply slice_eq_of_agree _ _ _ _ (by omega)
          (by rw [List.length_set, w1]; omega) (by rw [w1]; omega)
        intro k hk1 hk2
        exact hFne k (by omega)
      have eB : sliceI (res.1.set pos (getI arr i)) (pos + 1) (i + 1)
          = sliceI res.1 (pos + 1) (i + 1) := by
        apply slice_eq_of_agree _ _ _ _ (by omega)
          (by rw [List.length_set, w1]; omega) (by rw [w1]; omega)
        intro k hk1 hk2
        exact hFne k (by omega)
      have e1 : sliceI (res.1.set pos (getI arr i)) 0 (i + 1)
          = sliceI res.1 0 pos ++ (getI arr i) :: sliceI res.1 (pos + 1) (i + 1) := by
        rw [← slice_append_split (res.1.set pos (getI arr i)) 0 pos (i + 1)
          (by omega) (by omega)]
        rw [← slice_append_split (res.1.set pos (getI arr i)) pos (pos + 1) (i + 1)
          (by omega) (by omega)]
        rw [slice_singleton _ _ (by rw [List.length_set]; omega), hFpos, eA, eB]
        rfl
      have e2 : sliceI arr 0 (i + 1) = sliceI arr 0 i ++ [getI arr i] := by
        rw [← slice_append_split arr 0 i (i + 1) (by omega) (by omega)]
        rw [slice_singleton _ _ hilen]
      rw [e1, e2]
      rw [slice_empty arr (i + 1), List.append_nil] at w9
      refine List.perm_middle.trans ?_
      refine (w9.cons (getI arr i)).trans ?_
      exact (List.perm_append_singleton (getI arr i) (sliceI arr 0 i)).symm
    obtain ⟨ihPerm, ihSorted⟩ :=
      ih (res.1.set pos (getI arr i)) (i + 1) hFlen (by omega) (by omega) hFsorted
    simp only [insOuter]
    rw [← hres, ← hpos]
    exact ⟨ihPerm.trans hFperm, ihSorted⟩

/-- Insertion sort producer: final frame settled on `range n`, values sorted
ascending and a permutation of the input. -/
theorem generateInsertionSortFrames_correct (arr : List Int) (cl : CodeLines) :
    ((generateInsertionSortFrames arr cl).getLastD default).sorted
        = some (List.range arr.length) ∧
    ((generateInsertionSortFrames arr cl).getLastD default).array.Sorted (· ≤ ·) ∧
    ((generateInsertionSortFrames arr cl).getLastD default).array.Perm arr := by
  rcases eq_or_ne arr [] with rfl | hne
  · exact ⟨rfl, List.sorted_nil, List.Perm.refl []⟩
  · have hn : 0 < arr.length := List.length_pos.mpr hne
    obtain ⟨hperm, hsorted⟩ :=
      insOuter_spec cl arr.length (arr.length - 1) arr 1 rfl (by omega) (le_refl 1)
        (sortedRange_of_le arr 0 1 (by omega))
    have hlen := hperm.length_eq
    have hsortedL : (insOuter cl arr.length (arr.length - 1) arr 1).1.Sorted (· ≤ ·) := by
      apply sorted_of_sortedRange
      rw [hlen]
      exact hsorted
    simp only [generateInsertionSortFrames]
    simp only [List.getLastD_cons, List.getLastD_concat]
    exact ⟨trivial, hsortedL, hperm⟩

/-! ## Merge sort: correctness of the embedded producer

The three merge loops write consecutive positions; `writeSeq` captures that
write pattern, and the loops are proved equal to writing `List.merge` of the
two saved slices. -/

/-- Write the values `ws` into consecutive positions starting at `k`. -/
def writeSeq : List Int → Nat → List Int → List Int
  | arr, _, [] => arr
  | arr, k, w :: ws => writeSeq (arr.set k w) (k + 1) ws

theorem writeSeq_length : ∀ ws arr k, (writeSeq arr k ws).length = arr.length := by
  intro ws
  induction ws with
  | nil => intro arr k; rfl
  | cons w ws ih =>
    intro arr k
    simp only [writeSeq]
    rw [ih, List.length_set]

theorem getI_writeSeq_outside : ∀ ws arr k k2, k2 < k ∨ k + ws.length ≤ k2 →
    getI (writeSeq arr k ws) k2 = getI arr k2 := by
  intro ws
  induction ws with
  | nil => intro arr k k2 h; rfl
  | cons w ws ih =>
    intro arr k k2 h
    simp only [writeSeq]
    rw [ih _ _ _ (by simp at h ⊢; omega)]
    apply getI_set_ne
    simp at h
    omega

theorem getI_writeSeq_inside : ∀ ws arr k t, t < ws.length →
    k + ws.length ≤ arr.length →
    getI (writeSeq arr k ws) (k + t) = ws.getD t 0 := by
  intro ws
  induction ws with
  | nil => intro arr k t h1 h2; simp at h1
  | cons w ws ih =>
    intro arr k t h1 h2
    simp only [writeSeq]
    cases t with
    | zero =>
      simp only [Nat.add_zero]
      rw [getI_writeSeq_outside ws _ (k + 1) k (by omega)]
      rw [getI_set_eq arr k w (by simp at h2; omega)]
      rfl
    | succ t =>
      have : k + (t + 1) = (k + 1) + t := by omega
      rw [this, ih _ _ _ (by simp at h1; omega) (by simp at h2 ⊢; omega)]
      rfl

theorem slice_writeSeq (ws arr : List Int) (k : Nat)
    (h : k + ws.length ≤ arr.length) :
    sliceI (writeSeq arr k ws) k (k + ws.length) = ws := by
  apply List.ext_getElem
  · rw [length_slice _ _ _ (by omega) (by rw [writeSeq_length]; omega)]
    omega
  · intro t h1 h2
    rw [getElem_slice]
    rw [getI_writeSeq_inside ws arr k t (by omega) h]
    simp [List.getD_eq_getElem?_getD, List.getElem?_eq_getElem h2]

/-- `sortedRange` on `[a, b)` matches sortedness of the slice. -/
theorem sorted_slice_of_sortedRange (l : List Int) (a b : Nat)
    (hb : b ≤ l.length) (h : sortedRange l a b) :
    (sliceI l a b).Sorted (· ≤ ·) := by
  rw [List.Sorted, List.pairwise_iff_getElem]
  intro p q hp hq hpq
  rw [getElem_slice, getElem_slice]
  rcases le_or_lt b a with hab | hab
  · have := length_slice l a b
    simp [sliceI] at hp
    omega
  · have hlen := length_slice l a b (by omega) hb
    exact h (a + p) (a + q) (by omega) (by omega) (by omega)

theorem sortedRange_of_sorted_slice (l : List Int) (a b : Nat)
    (hab : a ≤ b) (hb : b ≤ l.length) (h : (sliceI l a b).Sorted (· ≤ ·)) :
    sortedRange l a b := by
  intro p q hp hpq hq
  rw [List.Sorted, List.pairwise_iff_getElem] at h
  have hlen := length_slice l a b hab hb
  have := h (p - a) (q - a) (by omega) (by omega) (by omega)
  rw [getElem_slice, getElem_slice] at this
  have e1 : a + (p - a) = p := by omega
  have e2 : a + (q - a) = q := by omega
  rw [e1, e2] at this
  exact this

/-- Two lists of the same length that agree outside `[a, b)` and whose
`[a, b)` slices are permutations are permutations. -/
theorem perm_of_middle_slice_perm (l' l : List Int) (a b : Nat)
    (hab : a ≤ b) (hb : b ≤ l.length) (hlen : l'.length = l.length)
    (hsp : (sliceI l' a b).Perm (sliceI l a b))
    (hout : ∀ k, k < a ∨ b ≤ k → getI l' k = getI l k) :
    l'.Perm l := by
  have hb' : b ≤ l'.length := by omega
  have htake : l'.take a = l.take a := by
    apply List.ext_getElem
    · simp
      omega
    · intro n h1 h2
      rw [List.getElem_take, List.getElem_take]
      have hn : n < l.length := by simp at h2; omega
      have hn' : n < l'.length := by omega
      have := hout n (Or.inl (by simp at h1; omega))
      simpa [getI, List.getD_eq_getElem?_getD, List.getElem?_eq_getElem hn,
        List.getElem?_eq_getElem hn'] using this
  have hdrop : l'.drop b = l.drop b := by
    apply List.ext_getElem
    · simp
      omega
    · intro n h1 h2
      rw [List.getElem_drop, List.getElem_drop]
      have hn : b + n < l.length := by simp at h2; omega
      have hn' : b + n < l'.length := by omega
      have := hout (b + n) (Or.inr (by omega))
      simpa [getI, List.getD_eq_getElem?_getD, List.getElem?_eq_getElem hn,
        List.getElem?_eq_getElem hn'] using this
  have hdecomp : ∀ (m : List Int), b ≤ m.length →
      m = m.take a ++ sliceI m a b ++ m.drop b := by
    intro m hm
    rw [sliceI, List.append_assoc]
    have h1 : (m.drop a).take (b - a) ++ m.drop b = m.drop a := by
      have : m.drop b = (m.drop a).drop (b - a) := by
        rw [List.drop_drop]
        congr 1
        omega
      rw [this, List.take_append_drop]
    rw [h1, List.take_append_drop]
  have hmain : (l'.take a ++ sliceI l' a b ++ l'.drop b).Perm
      (l.take a ++ sliceI l a b ++ l.drop b) := by
    rw [htake, hdrop]
    exact ((hsp.append_left _).append_right _)
  rw [← hdecomp l' hb', ← hdecomp l hb] at hmain
  exact hmain

theorem getI_eq_getElem (l : List Int) (i : Nat) (h : i < l.length) :
    getI l i = l[i] := by
  simp [getI, List.getD_eq_getElem?_getD, List.getElem?_eq_getElem h]

theorem slice_to_end (l : List Int) (a : Nat) :
    sliceI l a l.length = l.drop a := by
  simp only [sliceI]
  apply List.take_of_length_le
  simp

theorem merge_nil_right (xs : List Int) (le : Int → Int → Bool) :
    xs.merge [] le = xs := by
  cases xs <;> simp [List.merge]

theorem mergeCopy_arr (cl : CodeLines) (src : List Int) :
    ∀ count arr (i k : Nat), i + count ≤ src.length →
      (mergeCopy cl src count arr i k).1 = writeSeq arr k (sliceI src i (i + count)) ∧
      (mergeCopy cl src count arr i k).2.2 = k + count := by
  intro count
  induction count with
  | zero =>
    intro arr i k h
    simp only [mergeCopy]
    rw [Nat.add_zero, slice_empty]
    exact ⟨rfl, rfl⟩
  | succ count ih =>
    intro arr i k h
    simp only [mergeCopy]
    have hsl : sliceI src i (i + (count + 1))
        = getI src i :: sliceI src (i + 1) (i + 1 + count) := by
      rw [← slice_append_split src i (i + 1) (i + (count + 1)) (by omega) (by omega)]
      rw [slice_singleton src i (by omega)]
      have e : i + (count + 1) = i + 1 + count := by omega
      rw [e]
      rfl
    obtain ⟨e1, e2⟩ := ih (arr.set k (getI src i)) (i + 1) (k + 1) (by omega)
    constructor
    · rw [e1, hsl]
      rfl
    · rw [e2]
      omega

/-- The tail of `mergeRange` after the main loop: the two copy loops applied
to a main-loop state. -/
def mergeTail (cl : CodeLines) (L R : List Int)
    (st : List Int × List ArrayFrame × Nat × Nat × Nat) : List Int :=
  let c1 := mergeCopy cl L (L.length - st.2.2.1) st.1 st.2.2.1 st.2.2.2.2
  let c2 := mergeCopy cl R (R.length - st.2.2.2.1) c1.1 st.2.2.2.1 c1.2.2
  c2.1

theorem mergeTail_mergeMain_eq (cl : CodeLines) (L R : List Int) (left mid : Nat) :
    ∀ fuel arr (i j k : Nat),
      L.length - i + (R.length - j) ≤ fuel → i ≤ L.length → j ≤ R.length →
      mergeTail cl L R (mergeMain cl L R left mid fuel arr i j k)
        = writeSeq arr k ((L.drop i).merge (R.drop j) (fun a b => decide (a ≤ b))) := by
  intro fuel
  induction fuel with
  | zero =>
    intro arr i j k hfuel hi hj
    have hiL : i = L.length := by omega
    have hjR : j = R.length := by omega
    simp only [mergeMain, mergeTail]
    rw [show L.length - i = 0 from by omega, show R.length - j = 0 from by omega]
    simp only [mergeCopy]
    rw [hiL, hjR, List.drop_length, List.drop_length, List.nil_merge]
    rfl
  | succ fuel ih =>
    intro arr i j k hfuel hi hj
    by_cases hguard : i < L.length ∧ j < R.length
    · obtain ⟨hiL, hjR⟩ := hguard
      have hdL : L.drop i = L[i] :: L.drop (i + 1) := List.drop_eq_getElem_cons hiL
      have hdR : R.drop j = R[j] :: R.drop (j + 1) := List.drop_eq_getElem_cons hjR
      have hgL : getI L i = L[i] := getI_eq_getElem L i hiL
      have hgR : getI R j = R[j] := getI_eq_getElem R j hjR
      simp only [mergeMain]
      rw [if_pos ⟨hiL, hjR⟩]
      by_cases hle : getI L i ≤ getI R j
      · rw [if_pos hle]
        show mergeTail cl L R
            (mergeMain cl L R left mid fuel (arr.set k (getI L i)) (i + 1) j (k + 1))
          = writeSeq arr k ((L.drop i).merge (R.drop j) (fun a b => decide (a ≤ b)))
        rw [ih (arr.set k (getI L i)) (i + 1) j (k + 1) (by omega) (by omega) hj]
        have hmerge : (L.drop i).merge (R.drop j) (fun a b => decide (a ≤ b))
            = L[i] :: ((L.drop (i + 1)).merge (R.drop j) (fun a b => decide (a ≤ b))) := by
          rw [hdL, hdR, List.cons_merge_cons]
          rw [if_pos (by simp only [decide_eq_true_eq]; rw [← hgL, ← hgR]; exact hle)]
        rw [hmerge, hgL]
        exact rfl
      · rw [if_neg hle]
        show mergeTail cl L R
            (mergeMain cl L R left mid fuel (arr.set k (getI R j)) i (j + 1) (k + 1))
          = writeSeq arr k ((L.drop i).merge (R.drop j) (fun a b => decide (a ≤ b)))
        rw [ih (arr.set k (getI R j)) i (j + 1) (k + 1) (by omega) hi (by omega)]
        have hmerge : (L.drop i).merge (R.drop j) (fun a b => decide (a ≤ b))
            = R[j] :: ((L.drop i).merge (R.drop (j + 1)) (fun a b => decide (a ≤ b))) := by
          rw [hdL, hdR, List.cons_merge_cons]
          rw [if_neg (by simp only [decide_eq_true_eq]; rw [← hgL, ← hgR]; omega)]
        rw [hmerge, hgR]
        exact rfl
    · simp only [mergeMain]
      rw [if_neg hguard]
      simp only [mergeTail]
      rcases Nat.lt_or_ge i L.length with hiL | hiL
      · have hjR : j = R.length := by omega
        obtain ⟨e1, e2⟩ := mergeCopy_arr cl L (L.length - i) arr i k (by omega)
        rw [e1, e2]
        rw [show R.length - j = 0 from by omega]
        simp only [mergeCopy]
        rw [show i + (L.length - i) = L.length from by omega, slice_to_end L i]
        rw [hjR, List.drop_length, merge_nil_right]
      · have hiL' : i = L.length := by omega
        rw [show L.length - i = 0 from by omega]
        simp only [mergeCopy]
        obtain ⟨e1, e2⟩ := mergeCopy_arr cl R (R.length - j) arr j k (by omega)
        rw [e1]
        rw [show j + (R.length - j) = R.length from by omega, slice_to_end R j]
        rw [hiL', List.drop_length, List.nil_merge]

theorem mergeRange_spec (cl : CodeLines) (arr : List Int) (left mid right : Nat)
    (h1 : left ≤ mid) (h2 : mid < right) (h3 : right < arr.length)
    (hsL : sortedRange arr left (mid + 1))
    (hsR : sortedRange arr (mid + 1) (right + 1)) :
    (mergeRange cl arr left mid right).1.length = arr.length ∧
    (∀ k, k < left ∨ right < k →
      getI (mergeRange cl arr left mid right).1 k = getI arr k) ∧
    sortedRange (mergeRange cl arr left mid right).1 left (right + 1) ∧
    (mergeRange cl arr left mid right).1.Perm arr := by
  have hLlen : (sliceI arr left (mid + 1)).length = mid + 1 - left :=
    length_slice arr left (mid + 1) (by omega) (by omega)
  have hRlen : (sliceI arr (mid + 1) (right + 1)).length = right + 1 - (mid + 1) :=
    length_slice arr (mid + 1) (right + 1) (by omega) (by omega)
  have hpipe : (mergeRange cl arr left mid right).1
      = writeSeq arr left
          ((sliceI arr left (mid + 1)).merge (sliceI arr (mid + 1) (right + 1))
            (fun a b => decide (a ≤ b))) := by
    have h := mergeTail_mergeMain_eq cl (sliceI arr left (mid + 1))
      (sliceI arr (mid + 1) (right + 1)) left mid
      ((sliceI arr left (mid + 1)).length + (sliceI arr (mid + 1) (right + 1)).length)
      arr 0 0 left (by omega) (by omega) (by omega)
    rw [List.drop_zero, List.drop_zero] at h
    exact h
  have hMlen : ((sliceI arr left (mid + 1)).merge (sliceI arr (mid + 1) (right + 1))
      (fun a b => decide (a ≤ b))).length = right + 1 - left := by
    have hp : ((sliceI arr left (mid + 1)).merge (sliceI arr (mid + 1) (right + 1))
        (fun a b => decide (a ≤ b))).Perm
          (sliceI arr left (mid + 1) ++ sliceI arr (mid + 1) (right + 1)) :=
      List.merge_perm_append (fun a b => decide (a ≤ b))
    rw [hp.length_eq, List.length_append, hLlen, hRlen]
    omega
  have hMperm : ((sliceI arr left (mid + 1)).merge (sliceI arr (mid + 1) (right + 1))
      (fun a b => decide (a ≤ b))).Perm (sliceI arr left (right + 1)) := by
    refine (List.merge_perm_append _).trans ?_
    rw [slice_append_split arr left (mid + 1) (right + 1) (by omega) (by omega)]
  have hMsorted : ((sliceI arr left (mid + 1)).merge (sliceI arr (mid + 1) (right + 1))
      (fun a b => decide (a ≤ b))).Sorted (· ≤ ·) :=
    List.Sorted.merge
      (sorted_slice_of_sortedRange arr left (mid + 1) (by omega) hsL)
      (sorted_slice_of_sortedRange arr (mid + 1) (right + 1) (by omega) hsR)
  have hslice : sliceI (mergeRange cl arr left mid right).1 left (right + 1)
      = (sliceI arr left (mid + 1)).merge (sliceI arr (mid + 1) (right + 1))
          (fun a b => decide (a ≤ b)) := by
    rw [hpipe]
    have hw := slice_writeSeq _ arr left (by rw [hMlen]; omega)
    rwa [show left + ((sliceI arr left (mid + 1)).merge (sliceI arr (mid + 1) (right + 1))
      (fun a b => decide (a ≤ b))).length = right + 1 from by rw [hMlen]; omega] at hw
  have hlen : (mergeRange cl arr left mid right).1.length = arr.length := by
    rw [hpipe, writeSeq_length]
  have huntouched : ∀ k, k < left ∨ right < k →
      getI (mergeRange cl arr left mid right).1 k = getI arr k := by
    intro k hk
    rw [hpipe]
    apply getI_writeSeq_outside
    rw [hMlen]
    omega
  refine ⟨hlen, huntouched, ?_, ?_⟩
  · apply sortedRange_of_sorted_slice _ _ _ (by omega) (by rw [hlen]; omega)
    rw [hslice]
    exact hMsorted
  · apply perm_of_middle_slice_perm _ _ left (right + 1) (by omega) (by omega) hlen
    · rw [hslice]
      exact hMperm
    · exact huntouched

theorem mergeSortRec_noop (cl : CodeLines) (fuel : Nat) (arr : List Int)
    (left right : Nat) (h : left ≥ right) :
    mergeSortRec cl fuel arr left right = (arr, []) := by
  cases fuel with
  | zero => rfl
  | succ fuel =>
    simp only [mergeSortRec]
    rw [if_pos h]

theorem mergeSortRec_spec (cl : CodeLines) (fuel : Nat) :
    ∀ arr left right, right < arr.length → right ≤ left + fuel →
      (mergeSortRec cl fuel arr left right).1.length = arr.length ∧
      (mergeSortRec cl fuel arr left right).1.Perm arr ∧
      (∀ k, k < left ∨ right < k →
        getI (mergeSortRec cl fuel arr left right).1 k = getI arr k) ∧
      sortedRange (mergeSortRec cl fuel arr left right).1 left (right + 1) := by
  induction fuel with
  | zero =>
    intro arr left right hright hfuel
    refine ⟨rfl, List.Perm.refl arr, fun k _ => rfl, ?_⟩
    exact sortedRange_of_le arr left (right + 1) (by omega)
  | succ fuel ih =>
    intro arr left right hright hfuel
    by_cases hlr : left ≥ right
    · rw [mergeSortRec_noop cl (fuel + 1) arr left right hlr]
      refine ⟨rfl, List.Perm.refl arr, fun k _ => rfl, ?_⟩
      exact sortedRange_of_le arr left (right + 1) (by omega)
    · have hlr' : left < right := by omega
      have hmid1 : left ≤ (left + right) / 2 := by omega
      have hmid2 : (left + right) / 2 < right := by omega
      set mid := (left + right) / 2 with hmid
      -- first recursive call, sorting [left, mid]
      obtain ⟨l1, l2, l3, l4⟩ :=
        ih arr left mid (by omega) (by omega)
      set A := (mergeSortRec cl fuel arr left mid).1 with hA
      -- second recursive call on A, sorting [mid+1, right]
      have hc2hyp1 : right < A.length := by rw [hA, l1]; exact hright
      obtain ⟨r1, r2, r3, r4⟩ :=
        ih A (mid + 1) right hc2hyp1 (by omega)
      set B := (mergeSortRec cl fuel A (mid + 1) right).1 with hB
      have hlenB : B.length = arr.length := by rw [hB, r1, hA, l1]
      -- the left half is untouched by the second call, so stays sorted
      have hsortL : sortedRange B left (mid + 1) := by
        intro p q hp hpq hq
        rw [r3 p (Or.inl (by omega)), r3 q (Or.inl (by omega))]
        exact l4 p q hp hpq hq
      -- merge step
      obtain ⟨m1, m2, m3, m4⟩ :=
        mergeRange_spec cl B left mid right hmid1 hmid2 (by omega) hsortL r4
      -- now the goal
      simp only [mergeSortRec]
      rw [if_neg hlr]
      rw [← hmid, ← hA, ← hB]
      refine ⟨?_, ?_, ?_, ?_⟩
      · rw [m1, hlenB]
      · exact (m4.trans r2).trans l2
      · intro k hk
        rw [m2 k (by omega), r3 k (by omega), l3 k (by omega)]
      · exact m3

/-- Merge sort producer: final frame settled on `range n`, values sorted
ascending, a permutation of the input. -/
theorem generateMergeSortFrames_correct (arr : List Int) (cl : CodeLines) :
    ((generateMergeSortFrames arr cl).getLastD default).sorted
        = some (List.range arr.length) ∧
    ((generateMergeSortFrames arr cl).getLastD default).array.Sorted (· ≤ ·) ∧
    ((generateMergeSortFrames arr cl).getLastD default).array.Perm arr := by
  rcases eq_or_ne arr [] with rfl | hne
  · exact ⟨rfl, List.sorted_nil, List.Perm.refl []⟩
  · have hn : 0 < arr.length := List.length_pos.mpr hne
    obtain ⟨q1, q2, q3, q4⟩ :=
      mergeSortRec_spec cl arr.length arr 0 (arr.length - 1) (by omega) (by omega)
    have hone : arr.length - 1 + 1 = arr.length := by omega
    rw [hone] at q4
    have hsortedL : (mergeSortRec cl arr.length arr 0 (arr.length - 1)).1.Sorted
        (· ≤ ·) := by
      apply sorted_of_sortedRange
      rw [q1]
      exact q4
    simp only [generateMergeSortFrames]
    simp only [List.getLastD_cons, List.getLastD_concat]
    refine ⟨?_, hsortedL, q2⟩
    rw [q1]

/-! ## Claim C1 and claim C9 (amended) -/

/-- C1: for every non-empty numeric input, each of the five sorting frame
producers (bubble, selection, insertion, merge, quick) returns a sequence
whose final frame has its `sorted` field marking every index of the array
(`List.range` of the length) and whose values are the input rearranged in
ascending sorted order. -/
theorem sorting_producers_final_frame_correct (arr : List Int) (cl : CodeLines)
    (hne : arr ≠ []) :
    (((generateBubbleSortFrames arr cl).getLastD default).sorted
        = some (List.range arr.length) ∧
      ((generateBubbleSortFrames arr cl).getLastD default).array.Sorted (· ≤ ·) ∧
      ((generateBubbleSortFrames arr cl).getLastD default).array.Perm arr) ∧
    (((generateSelectionSortFrames arr cl).getLastD default).sorted
        = some (List.range arr.length) ∧
      ((generateSelectionSortFrames arr cl).getLastD default).array.Sorted (· ≤ ·) ∧
      ((generateSelectionSortFrames arr cl).getLastD default).array.Perm arr) ∧
    (((generateInsertionSortFrames arr cl).getLastD default).sorted
        = some (List.range arr.length) ∧
      ((generateInsertionSortFrames arr cl).getLastD default).array.Sorted (· ≤ ·) ∧
      ((generateInsertionSortFrames arr cl).getLastD default).array.Perm arr) ∧
    (((generateMergeSortFrames arr cl).getLastD default).sorted
        = some (List.range arr.length) ∧
      ((generateMergeSortFrames arr cl).getLastD default).array.Sorted (· ≤ ·) ∧
      ((generateMergeSortFrames arr cl).getLastD default).array.Perm arr) ∧
    (((generateQuickSortFrames arr cl).getLastD default).sorted
        = some (List.range arr.length) ∧
      ((generateQuickSortFrames arr cl).getLastD default).array.Sorted (· ≤ ·) ∧
      ((generateQuickSortFrames arr cl).getLastD default).array.Perm arr) := by
  obtain ⟨b1, b2, b3, _⟩ := generateBubbleSortFrames_correct arr cl
  obtain ⟨s1, s2, s3, _⟩ := generateSelectionSortFrames_correct arr cl
  obtain ⟨i1, i2, i3⟩ := generateInsertionSortFrames_correct arr cl
  obtain ⟨m1, m2, m3⟩ := generateMergeSortFrames_correct arr cl
  obtain ⟨q1, q2, q3, _⟩ := generateQuickSortFrames_correct arr cl
  exact ⟨⟨b1, b2, b3⟩, ⟨s1, s2, s3⟩, ⟨i1, i2, i3⟩, ⟨m1, m2, m3⟩, ⟨q1, q2, q3⟩⟩

theorem sorting_producers_final_frame_correct_witness :
    ([3, 1, 2] : List Int) ≠ [] ∧
    ((((generateBubbleSortFrames [3, 1, 2] {}).getLastD default).sorted
        = some (List.range ([3, 1, 2] : List Int).length) ∧
      ((generateBubbleSortFrames [3, 1, 2] {}).getLastD default).array.Sorted (· ≤ ·) ∧
      ((generateBubbleSortFrames [3, 1, 2] {}).getLastD default).array.Perm [3, 1, 2]) ∧
    (((generateSelectionSortFrames [3, 1, 2] {}).getLastD default).sorted
        = some (List.range ([3, 1, 2] : List Int).length) ∧
      ((generateSelectionSortFrames [3, 1, 2] {}).getLastD default).array.Sorted (· ≤ ·) ∧
      ((generateSelectionSortFrames [3, 1, 2] {}).getLastD default).array.Perm [3, 1, 2]) ∧
    (((generateInsertionSortFrames [3, 1, 2] {}).getLastD default).sorted
        = some (List.range ([3, 1, 2] : List Int).length) ∧
      ((generateInsertionSortFrames [3, 1, 2] {}).getLastD default).array.Sorted (· ≤ ·) ∧
      ((generateInsertionSortFrames [3, 1, 2] {}).getLastD default).array.Perm [3, 1, 2]) ∧
    (((generateMergeSortFrames [3, 1, 2] {}).getLastD default).sorted
        = some (List.range ([3, 1, 2] : List Int).length) ∧
      ((generateMergeSortFrames [3, 1, 2] {}).getLastD default).array.Sorted (· ≤ ·) ∧
      ((generateMergeSortFrames [3, 1, 2] {}).getLastD default).array.Perm [3, 1, 2]) ∧
    (((generateQuickSortFrames [3, 1, 2] {}).getLastD default).sorted
        = some (List.range ([3, 1, 2] : List Int).length) ∧
      ((generateQuickSortFrames [3, 1, 2] {}).getLastD default).array.Sorted (· ≤ ·) ∧
      ((generateQuickSortFrames [3, 1, 2] {}).getLastD default).array.Perm [3, 1, 2])) :=
  ⟨by decide, sorting_producers_final_frame_correct [3, 1, 2] {} (by decide)⟩

/-- C9 (amended): every frame emitted by the swap-based producers (bubble,
selection, quick) has a values array that is a permutation of the input;
merge sort (see the counterexample) and insertion sort instead emit
intermediate copy/shift frames whose arrays can duplicate values. -/
theorem swap_producers_all_frames_perm (arr : List Int) (cl : CodeLines) :
    (∀ f ∈ generateBubbleSortFrames arr cl, f.array.Perm arr) ∧
    (∀ f ∈ generateSelectionSortFrames arr cl, f.array.Perm arr) ∧
    (∀ f ∈ generateQuickSortFrames arr cl, f.array.Perm arr) :=
  ⟨(generateBubbleSortFrames_correct arr cl).2.2.2,
   (generateSelectionSortFrames_correct arr cl).2.2.2,
   (generateQuickSortFrames_correct arr cl).2.2.2⟩

theorem swap_producers_all_frames_perm_witness :
    ((generateBubbleSortFrames [2, 1] {}).getD 1 default)
        ∈ generateBubbleSortFrames [2, 1] {} ∧
    ((generateBubbleSortFrames [2, 1] {}).getD 1 default).array.Perm [2, 1] :=
  ⟨by decide, (swap_producers_all_frames_perm [2, 1] {}).1 _ (by decide)⟩
